import Mathlib

/-!
# CargoBay — verification of the name-based container clustering engine

This file is a shallow embedding of the clustering engine of the CargoBay
desktop console (the TypeScript functions `containerGroupCandidates` and
`groupContainersByNamePrefix` in the repository), together with proofs of
the behavioural properties stated in the design specification.

Modelling decisions, in one place:

* JavaScript strings are modelled as `List Char` (`Str`).  `String.prototype.trim`
  is modelled by `jsTrim`, dropping the JS whitespace characters from both ends.
* The regular-expression replacement `trimmed.replace(/[-_]\d+$/, "")` is modelled
  by `stripMatch` / `stripIndexSuffix`: the regex is anchored at the end of the
  string, so a match starting at position `i` exists exactly when the character
  at `i` is `-` or `_` and everything after it is a non-empty run of digits;
  `replace` uses the leftmost such position and deletes the match (which always
  extends to the end of the string).
* A JavaScript `Set` is modelled as a list of distinct elements in insertion
  order (`setAdd` / `dedupFirst`); a JavaScript `Map` is modelled as an
  association list in insertion order (`jsGet` / `jsSet`), where `set` on an
  existing key overwrites the value in place.
* `Array.prototype.sort(cmp)` with an `Int`-valued comparator is modelled as a
  stable merge sort with the relation `cmp a b ≤ 0` (`jsSortBy`).  The
  comparators of the source are consistent total preorders, so any
  specification-compliant JS sort produces this exact list.
* `String.prototype.localeCompare` is modelled as code-point lexicographic
  comparison (`cmpChars`); the specification describes the order as plain
  lexicographic order.
-/

set_option linter.unusedVariables false

namespace CargoBay

/-- JavaScript strings, modelled as lists of characters. -/
abbrev Str := List Char

/-- The main whitespace characters removed by JavaScript `String.prototype.trim`. -/
def isJsWhitespace (c : Char) : Bool :=
  c == ' ' || c == '\t' || c == '\n' || c == '\r' ||
  c == '\x0b' || c == '\x0c' || c == '\u00A0' || c == '\uFEFF'

/-- Model of `name.trim()`. -/
def jsTrim (s : Str) : Str :=
  ((s.dropWhile isJsWhitespace).reverse.dropWhile isJsWhitespace).reverse

/-- The separator set of the candidate generator: `ch === "-" || ch === "_"`. -/
def isSep (c : Char) : Bool := c == '-' || c == '_'

/-- One attempt of the anchored regex `[-_]\d+$` at start position `i` of `s`:
it succeeds iff `s[i]` is a separator and the rest of the string is a non-empty
run of digits, and then yields the result of deleting the match from `s`. -/
def matchAt (s : Str) (i : Nat) : Option Str :=
  match s.drop i with
  | [] => none
  | c :: ds => if isSep c && !ds.isEmpty && ds.all Char.isDigit then some (s.take i) else none

/-- The leftmost match of `[-_]\d+$` in `s`, as the string with the match deleted. -/
def stripMatch (s : Str) : Option Str :=
  ((List.range s.length).filterMap (matchAt s)).head?

/-- Model of `trimmed.replace(/[-_]\d+$/, "")`. -/
def stripIndexSuffix (s : Str) : Str :=
  (stripMatch s).getD s

/-- `Set.prototype.add`: append the element unless it is already present. -/
def setAdd [DecidableEq α] (acc : List α) (x : α) : List α :=
  if x ∈ acc then acc else acc ++ [x]

/-- `Array.from(new Set(l))`: the distinct elements of `l`, each at its first position. -/
def dedupFirst [DecidableEq α] (l : List α) : List α :=
  l.foldl setAdd []

/-- Embedding of the source function `containerGroupCandidates`. -/
def containerGroupCandidates (name : Str) : List Str :=
  let trimmed := jsTrim name
  if trimmed.isEmpty then []
  else
    let out0 := [trimmed]
    let base := stripIndexSuffix trimmed
    let out1 := if base.isEmpty then out0 else setAdd out0 base
    (List.range trimmed.length).foldl
      (fun acc i =>
        if isSep (trimmed.getD i ' ') then
          if (trimmed.take i).isEmpty then acc else setAdd acc (trimmed.take i)
        else acc)
      out1

/-- Embedding of the `ContainerInfo` record delivered by the runtime collaborator. -/
structure ContainerInfo where
  id : Str
  name : Str
  image : Str
  state : Str
  status : Str
  ports : Str
deriving DecidableEq

/-- Embedding of the `ContainerGroup` record produced by the engine. -/
structure ContainerGroup where
  key : Str
  containers : List ContainerInfo
  runningCount : Nat
  stoppedCount : Nat
deriving DecidableEq

/-- `Map.prototype.get`, on an association list in insertion order. -/
def jsGet [DecidableEq α] : List (α × β) → α → Option β
  | [], _ => none
  | p :: m, k => if p.1 = k then some p.2 else jsGet m k

/-- `Map.prototype.set`: overwrite in place if the key is present, else append. -/
def jsSet [DecidableEq α] : List (α × β) → α → β → List (α × β)
  | [], k, v => [(k, v)]
  | p :: m, k, v => if p.1 = k then (k, v) :: m else p :: jsSet m k v

/-- `c.name || c.id` (the empty string is the only falsy string). -/
def nameOrId (c : ContainerInfo) : Str :=
  if c.name.isEmpty then c.id else c.name

/-- `(c.name || c.id).trim()`, the per-record string all candidates come from. -/
def computeName (c : ContainerInfo) : Str :=
  jsTrim (nameOrId c)

/-- `Array.from(new Set(containerGroupCandidates(name)))` for one record. -/
def uniqueCandidates (c : ContainerInfo) : List Str :=
  dedupFirst (containerGroupCandidates (computeName c))

/-- First pass of `groupContainersByNamePrefix`: the global frequency index
`candidateCounts` and the memoisation map `candidatesById`. -/
def buildIndex (containers : List ContainerInfo) :
    List (Str × Nat) × List (Str × List Str) :=
  containers.foldl
    (fun acc c =>
      let uniq := uniqueCandidates c
      (uniq.foldl (fun m cand => jsSet m cand ((jsGet m cand).getD 0 + 1)) acc.1,
       jsSet acc.2 c.id uniq))
    ([], [])

/-- One iteration of the best-candidate loop, on the state `(bestKey, bestCount, bestLen)`. -/
def selectStep (counts : List (Str × Nat)) (best : Str × Nat × Nat) (cand : Str) :
    Str × Nat × Nat :=
  let count := (jsGet counts cand).getD 0
  if count < 2 then best
  else if best.2.1 < count ∨ (count = best.2.1 ∧ best.2.2 < cand.length) then
    (cand, count, cand.length)
  else best

/-- The best-candidate loop of the second pass, started at `(name, 1, 0)`. -/
def selectLoop (counts : List (Str × Nat)) (name : Str) (cands : List Str) :
    Str × Nat × Nat :=
  cands.foldl (selectStep counts) (name, 1, 0)

/-- The group key the second pass chooses for one record
(`candidatesById.get(c.id)` is always set and non-empty arrays are truthy,
so the `|| containerGroupCandidates(name)` fallback is modelled by `getD`). -/
def recordKey (counts : List (Str × Nat)) (cbid : List (Str × List Str))
    (c : ContainerInfo) : Str :=
  let cands := (jsGet cbid c.id).getD (containerGroupCandidates (computeName c))
  (selectLoop counts (computeName c) cands).1

/-- Second pass of `groupContainersByNamePrefix`: partition the records by their
selected key into the `groups` map.  The source pushes onto the existing array
when the key is present and stores a fresh `[c]` otherwise; both cases are the
single update `set(k, (get(k) ?? []) ++ [c])`, which this embedding uses. -/
def buildGroups (counts : List (Str × Nat)) (cbid : List (Str × List Str))
    (containers : List ContainerInfo) : List (Str × List ContainerInfo) :=
  containers.foldl
    (fun groups c =>
      jsSet groups (recordKey counts cbid c)
        ((jsGet groups (recordKey counts cbid c)).getD [] ++ [c]))
    []

/-- Code-point lexicographic comparison of strings (model of `localeCompare`). -/
def cmpChars : Str → Str → Ordering
  | [], [] => .eq
  | [], _ :: _ => .lt
  | _ :: _, [] => .gt
  | a :: as, b :: bs => if a < b then .lt else if b < a then .gt else cmpChars as bs

/-- The sign a JS comparator returns for a given `Ordering`. -/
def ordInt : Ordering → Int
  | .lt => -1
  | .eq => 0
  | .gt => 1

/-- `c.state === "running"`. -/
def isRunning (c : ContainerInfo) : Bool :=
  c.state == "running".data

/-- The member comparator of the source: running first, then `name || id`, then `id`. -/
def memberCmp (a b : ContainerInfo) : Int :=
  if isRunning a != isRunning b then (if isRunning a then -1 else 1)
  else
    let an := ordInt (cmpChars (nameOrId a) (nameOrId b))
    if an ≠ 0 then an else ordInt (cmpChars a.id b.id)

/-- The group comparator of the source: any-running first, then larger first, then key. -/
def groupCmp (a b : ContainerGroup) : Int :=
  if decide (0 < a.runningCount) != decide (0 < b.runningCount) then
    (if 0 < a.runningCount then -1 else 1)
  else if a.containers.length ≠ b.containers.length then
    (b.containers.length : Int) - (a.containers.length : Int)
  else ordInt (cmpChars a.key b.key)

/-- Insert `x` into `l` immediately before the first element `y` with `le x y`
(for elements comparing equal this keeps the later-inserted element first,
which makes the fold below a stable sort). -/
def insertSorted (le : α → α → Bool) (x : α) : List α → List α
  | [] => [x]
  | y :: ys => if le x y then x :: y :: ys else y :: insertSorted le x ys

/-- Stable insertion sort with respect to the Boolean relation `le`. -/
def sortByLE (le : α → α → Bool) : List α → List α
  | [] => []
  | x :: xs => insertSorted le x (sortByLE le xs)

/-- `Array.prototype.sort(cmp)`: a stable sort with respect to `cmp a b ≤ 0`.
The comparators used by the source are consistent (they induce total
preorders), and for a consistent comparator the ECMAScript specification
mandates the unique stable result, which is what this insertion sort returns. -/
def jsSortBy (cmp : α → α → Int) (l : List α) : List α :=
  sortByLE (fun a b => decide (cmp a b ≤ 0)) l

/-- Embedding of the source function `groupContainersByNamePrefix`. -/
def groupContainersByNamePrefix (containers : List ContainerInfo) : List ContainerGroup :=
  let idx := buildIndex containers
  let groups := buildGroups idx.1 idx.2 containers
  let out := groups.map (fun kv =>
    let runningCount := kv.2.countP isRunning
    { key := kv.1
      containers := jsSortBy memberCmp kv.2
      runningCount := runningCount
      stoppedCount := kv.2.length - runningCount })
  jsSortBy groupCmp out

/-! ## Specification-side definitions

The definitions below are written from the wording of the specification (§4.1,
§4.3, §4.4 and the invariants of §3/§8), to be compared with the embedded code. -/

/-- Spec §4.2: the number of distinct records whose candidate set contains `cand`. -/
def freqCount (containers : List ContainerInfo) (cand : Str) : Nat :=
  containers.countP (fun c => decide (cand ∈ uniqueCandidates c))

/-- Spec §4.3: the eligible candidates of a record, in candidate-generation order. -/
def eligibleOf (containers : List ContainerInfo) (c : ContainerInfo) : List Str :=
  (uniqueCandidates c).filter (fun k => decide (2 ≤ freqCount containers k))

/-- The maximum of a list of naturals. -/
def natMax (l : List Nat) : Nat := l.foldr Nat.max 0

/-- Spec §4.3: the candidates of `es` whose count is highest. -/
def maxCountPool (cnt : Str → Nat) (es : List Str) : List Str :=
  es.filter (fun k => decide (cnt k = natMax (es.map cnt)))

/-- Spec §4.3: among the candidates of highest count, the longest ones. -/
def maxLenPool (cnt : Str → Nat) (es : List Str) : List Str :=
  (maxCountPool cnt es).filter
    (fun k => decide (k.length = natMax ((maxCountPool cnt es).map List.length)))

/-- Spec §4.3: among `es`, keep the candidates of highest count, among those the
longest ones, and take the first survivor in generation order. -/
def argBest (cnt : Str → Nat) (es : List Str) (dflt : Str) : Str :=
  (maxLenPool cnt es).headD dflt

/-- Spec §4.3, as written: the key selected for one record. -/
def specKey (containers : List ContainerInfo) (c : ContainerInfo) : Str :=
  if (eligibleOf containers c).isEmpty then computeName c
  else argBest (freqCount containers) (eligibleOf containers c) (computeName c)

/-- Spec §4.1, as written: the raw candidate generation sequence — the full
trimmed name, then the suffix-stripped form when it exists and is non-empty,
then for each separator occurrence, left to right, the non-empty prefix ending
immediately before it. -/
def genSequence (name : Str) : List Str :=
  let t := jsTrim name
  [t] ++
    (match stripMatch t with
     | some b => if b.isEmpty then [] else [b]
     | none => []) ++
    (List.range t.length).filterMap (fun i =>
      if isSep (t.getD i ' ') && !(t.take i).isEmpty then some (t.take i) else none)

/-- Spec §4.4, as written: the member order inside a group — running members
before stopped ones, then ascending lexicographic order on `name || id`, with
`id` as the final tie-break. -/
def specMemberLE (a b : ContainerInfo) : Prop :=
  (isRunning a = true ∧ isRunning b = false) ∨
  (isRunning a = isRunning b ∧
    (cmpChars (nameOrId a) (nameOrId b) = .lt ∨
      (nameOrId a = nameOrId b ∧ cmpChars a.id b.id ≠ .gt)))

/-- Spec §4.4, as written: the group order of the final sequence — groups with a
running member first, then descending member count, then ascending key. -/
def specGroupLE (a b : ContainerGroup) : Prop :=
  (0 < a.runningCount ∧ b.runningCount = 0) ∨
  ((0 < a.runningCount ↔ 0 < b.runningCount) ∧
    (b.containers.length < a.containers.length ∨
      (a.containers.length = b.containers.length ∧ cmpChars a.key b.key ≠ .gt)))

/-! ## Concrete records for the scenarios of the specification -/

/-- A record with the given id, name and state and empty passthrough fields. -/
def mkRec (i n st : String) : ContainerInfo :=
  { id := i.data, name := n.data, image := [], state := st.data, status := [], ports := [] }

def recWeb1 : ContainerInfo := mkRec "web-1" "web-1" "running"
def recWeb2 : ContainerInfo := mkRec "web-2" "web-2" "running"
def recApi1 : ContainerInfo := mkRec "api-1" "api-1" "running"
def recDb : ContainerInfo := mkRec "db" "db" "running"
def recDbR1 : ContainerInfo := mkRec "db-replica-1" "db-replica-1" "stopped"
def recDbR2 : ContainerInfo := mkRec "db-replica-2" "db-replica-2" "running"
def recC6 : ContainerInfo := mkRec "c1" "" "running"
def recBlankName : ContainerInfo := mkRec "c1" " " "running"
def recEmptyA : ContainerInfo := mkRec "" "" "running"
def recEmptyB : ContainerInfo := mkRec "" "" "stopped"
def recBlankA : ContainerInfo := mkRec "a" " " "running"
def recBlankB : ContainerInfo := mkRec "b" " " "running"

/-! ## Basic lemmas: maps, sets, sorting -/

theorem jsGet_jsSet_self [DecidableEq α] (m : List (α × β)) (k : α) (v : β) :
    jsGet (jsSet m k v) k = some v := by
  induction m with
  | nil => simp [jsSet, jsGet]
  | cons p m ih =>
    by_cases h : p.1 = k
    · simp [jsSet, jsGet, h]
    · simp [jsSet, jsGet, h, ih]

theorem jsGet_jsSet_ne [DecidableEq α] (m : List (α × β)) (k k' : α) (v : β)
    (h : k ≠ k') : jsGet (jsSet m k v) k' = jsGet m k' := by
  induction m with
  | nil => simp [jsSet, jsGet, h]
  | cons p m ih =>
    by_cases hp : p.1 = k
    · subst hp
      simp [jsSet, jsGet, h]
    · simp only [jsSet, if_neg hp, jsGet]
      by_cases hp' : p.1 = k' <;> simp [hp', ih]

theorem jsGet_some_mem [DecidableEq α] {m : List (α × β)} {k : α} {v : β}
    (h : jsGet m k = some v) : (k, v) ∈ m := by
  induction m with
  | nil => simp [jsGet] at h
  | cons p m ih =>
    by_cases hp : p.1 = k
    · simp only [jsGet, if_pos hp, Option.some.injEq] at h
      exact List.mem_cons.mpr (Or.inl (by rw [← hp, ← h]))
    · simp only [jsGet, if_neg hp] at h
      exact List.mem_cons_of_mem _ (ih h)

theorem jsGet_none_iff [DecidableEq α] {m : List (α × β)} {k : α} :
    jsGet m k = none ↔ k ∉ m.map Prod.fst := by
  induction m with
  | nil => simp [jsGet]
  | cons p m ih =>
    by_cases hp : p.1 = k
    · simp [jsGet, hp]
    · simp only [jsGet, if_neg hp, ih, List.map_cons, List.mem_cons]
      constructor
      · intro h h'
        rcases h' with h' | h'
        · exact hp h'.symm
        · exact h h'
      · intro h h'
        exact h (Or.inr h')

theorem jsSet_of_get_none [DecidableEq α] {m : List (α × β)} {k : α} (v : β)
    (h : jsGet m k = none) : jsSet m k v = m ++ [(k, v)] := by
  induction m with
  | nil => simp [jsSet]
  | cons p m ih =>
    by_cases hp : p.1 = k
    · simp [jsGet, hp] at h
    · simp only [jsGet, if_neg hp] at h
      simp [jsSet, hp, ih h]

theorem keys_jsSet_of_get_some [DecidableEq α] {m : List (α × β)} {k : α} {v : β}
    (w : β) (h : jsGet m k = some v) :
    (jsSet m k w).map Prod.fst = m.map Prod.fst := by
  induction m with
  | nil => simp [jsGet] at h
  | cons p m ih =>
    by_cases hp : p.1 = k
    · simp [jsSet, hp]
    · simp only [jsGet, if_neg hp] at h
      simp [jsSet, hp, ih h]

theorem mem_jsSet_of_nodup [DecidableEq α] {m : List (α × β)} {k : α} {w : β}
    (hnd : (m.map Prod.fst).Nodup) (kv : α × β) :
    kv ∈ jsSet m k w ↔ (kv = (k, w) ∨ (kv ∈ m ∧ kv.1 ≠ k)) := by
  induction m with
  | nil =>
    simp [jsSet]
  | cons p m ih =>
    simp only [List.map_cons, List.nodup_cons] at hnd
    by_cases hp : p.1 = k
    · rw [jsSet, if_pos hp]
      simp only [List.mem_cons]
      constructor
      · rintro (h | hm)
        · exact Or.inl h
        · refine Or.inr ⟨Or.inr hm, ?_⟩
          intro hk
          rw [← hp] at hk
          exact hnd.1 (hk ▸ List.mem_map_of_mem Prod.fst hm)
      · rintro (h | ⟨hm, hne⟩)
        · exact Or.inl h
        · rcases hm with h | hm
          · exact absurd (by rw [h]; exact hp) hne
          · exact Or.inr hm
    · rw [jsSet, if_neg hp]
      simp only [List.mem_cons, ih hnd.2]
      constructor
      · rintro (h | (h | ⟨hm, hne⟩))
        · refine Or.inr ⟨Or.inl h, ?_⟩
          intro hk
          rw [h] at hk
          exact hp hk
        · exact Or.inl h
        · exact Or.inr ⟨Or.inr hm, hne⟩
      · rintro (h | ⟨hm, hne⟩)
        · exact Or.inr (Or.inl h)
        · rcases hm with h | hm
          · exact Or.inl h
          · exact Or.inr (Or.inr ⟨hm, hne⟩)

theorem mem_setAdd [DecidableEq α] (acc : List α) (x y : α) :
    y ∈ setAdd acc x ↔ y ∈ acc ∨ y = x := by
  unfold setAdd
  split
  · rename_i h
    constructor
    · exact Or.inl
    · rintro (hy | rfl)
      · exact hy
      · exact h
  · simp [List.mem_append]

theorem nodup_setAdd [DecidableEq α] (acc : List α) (x : α) (h : acc.Nodup) :
    (setAdd acc x).Nodup := by
  unfold setAdd
  split
  · exact h
  · rename_i hx
    simp [List.nodup_append, h, hx]

theorem nodup_foldl_setAdd [DecidableEq α] (l : List α) (acc : List α)
    (h : acc.Nodup) : (l.foldl setAdd acc).Nodup := by
  induction l generalizing acc with
  | nil => exact h
  | cons x l ih => exact ih _ (nodup_setAdd _ _ h)

theorem nodup_dedupFirst [DecidableEq α] (l : List α) : (dedupFirst l).Nodup :=
  nodup_foldl_setAdd l [] List.nodup_nil

theorem mem_foldl_setAdd [DecidableEq α] (l : List α) (acc : List α) (x : α) :
    x ∈ l.foldl setAdd acc ↔ x ∈ acc ∨ x ∈ l := by
  induction l generalizing acc with
  | nil => simp
  | cons y l ih =>
    simp only [List.foldl_cons, ih, mem_setAdd, List.mem_cons]
    tauto

theorem mem_dedupFirst [DecidableEq α] (l : List α) (x : α) :
    x ∈ dedupFirst l ↔ x ∈ l := by
  simp [dedupFirst, mem_foldl_setAdd]

theorem perm_insertSorted (le : α → α → Bool) (x : α) (l : List α) :
    (insertSorted le x l).Perm (x :: l) := by
  induction l with
  | nil => simp [insertSorted]
  | cons y l ih =>
    unfold insertSorted
    split
    · exact List.Perm.refl _
    · exact (ih.cons y).trans (List.Perm.swap x y l)

theorem perm_sortByLE (le : α → α → Bool) (l : List α) :
    (sortByLE le l).Perm l := by
  induction l with
  | nil => exact List.Perm.refl _
  | cons x l ih => exact (perm_insertSorted le x _).trans (ih.cons x)

theorem pairwise_insertSorted (le : α → α → Bool)
    (total : ∀ a b, le a b = true ∨ le b a = true)
    (trans : ∀ a b c, le a b = true → le b c = true → le a c = true)
    (x : α) (l : List α) (h : l.Pairwise (fun a b => le a b = true)) :
    (insertSorted le x l).Pairwise (fun a b => le a b = true) := by
  induction l with
  | nil => simp [insertSorted]
  | cons y l ih =>
    rcases List.pairwise_cons.mp h with ⟨hy, hl⟩
    unfold insertSorted
    split
    · rename_i hxy
      refine List.pairwise_cons.mpr ⟨?_, h⟩
      intro z hz
      rcases List.mem_cons.mp hz with rfl | hz
      · exact hxy
      · exact trans x y z hxy (hy z hz)
    · rename_i hxy
      have hyx : le y x = true := by
        rcases total x y with hv | hv
        · exact absurd hv hxy
        · exact hv
      refine List.pairwise_cons.mpr ⟨?_, ih hl⟩
      intro z hz
      have := (perm_insertSorted le x l).mem_iff.mp hz
      rcases List.mem_cons.mp this with rfl | hz'
      · exact hyx
      · exact hy z hz'

theorem pairwise_sortByLE (le : α → α → Bool)
    (total : ∀ a b, le a b = true ∨ le b a = true)
    (trans : ∀ a b c, le a b = true → le b c = true → le a c = true)
    (l : List α) : (sortByLE le l).Pairwise (fun a b => le a b = true) := by
  induction l with
  | nil => simp [sortByLE]
  | cons x l ih => exact pairwise_insertSorted le total trans x _ ih

theorem perm_jsSortBy (cmp : α → α → Int) (l : List α) :
    (jsSortBy cmp l).Perm l :=
  perm_sortByLE _ l

theorem pairwise_jsSortBy (cmp : α → α → Int)
    (total : ∀ a b, cmp a b ≤ 0 ∨ cmp b a ≤ 0)
    (trans : ∀ a b c, cmp a b ≤ 0 → cmp b c ≤ 0 → cmp a c ≤ 0)
    (l : List α) : (jsSortBy cmp l).Pairwise (fun a b => cmp a b ≤ 0) := by
  have h := pairwise_sortByLE (fun a b => decide (cmp a b ≤ 0))
    (fun a b => by rcases total a b with h | h <;> [left; right] <;> simpa using h)
    (fun a b c hab hbc => by simp only [decide_eq_true_eq] at *; exact trans a b c hab hbc)
    l
  exact h.imp (fun hab => by simpa using hab)

/-! ## The lexicographic comparison -/

theorem cmpChars_eq_iff (a b : Str) : cmpChars a b = .eq ↔ a = b := by
  induction a generalizing b with
  | nil => cases b <;> simp [cmpChars]
  | cons x as ih =>
    cases b with
    | nil => simp [cmpChars]
    | cons y bs =>
      rcases lt_trichotomy x y with h1 | h1 | h1
      · rw [cmpChars, if_pos h1]
        simp only [List.cons.injEq]
        constructor
        · intro h; exact Ordering.noConfusion h
        · rintro ⟨rfl, -⟩; exact absurd h1 (lt_irrefl x)
      · subst h1
        rw [cmpChars, if_neg (lt_irrefl x), if_neg (lt_irrefl x)]
        simp [ih]
      · rw [cmpChars, if_neg (asymm h1), if_pos h1]
        simp only [List.cons.injEq]
        constructor
        · intro h; exact Ordering.noConfusion h
        · rintro ⟨rfl, -⟩; exact absurd h1 (lt_irrefl x)

theorem cmpChars_swap (a b : Str) : cmpChars b a = (cmpChars a b).swap := by
  induction a generalizing b with
  | nil => cases b <;> simp [cmpChars, Ordering.swap]
  | cons x as ih =>
    cases b with
    | nil => simp [cmpChars, Ordering.swap]
    | cons y bs =>
      rcases lt_trichotomy x y with h1 | h1 | h1
      · rw [show cmpChars (x :: as) (y :: bs) = .lt from by rw [cmpChars, if_pos h1],
          show cmpChars (y :: bs) (x :: as) = .gt from by
            rw [cmpChars, if_neg (asymm h1), if_pos h1]]
        rfl
      · subst h1
        rw [cmpChars, if_neg (lt_irrefl x), if_neg (lt_irrefl x),
          cmpChars, if_neg (lt_irrefl x), if_neg (lt_irrefl x)]
        exact ih bs
      · rw [show cmpChars (x :: as) (y :: bs) = .gt from by
            rw [cmpChars, if_neg (asymm h1), if_pos h1],
          show cmpChars (y :: bs) (x :: as) = .lt from by rw [cmpChars, if_pos h1]]
        rfl

theorem cmpChars_gt_iff (a b : Str) : cmpChars a b = .gt ↔ cmpChars b a = .lt := by
  rw [cmpChars_swap a b]
  cases cmpChars a b <;> simp [Ordering.swap]

theorem cmpChars_lt_trans : ∀ {a b c : Str}, cmpChars a b = .lt → cmpChars b c = .lt →
    cmpChars a c = .lt
  | [], [], _, hab, _ => by simp [cmpChars] at hab
  | [], _ :: _, [], _, hbc => by simp [cmpChars] at hbc
  | [], _ :: _, _ :: _, _, _ => by simp [cmpChars]
  | _ :: _, [], _, hab, _ => by simp [cmpChars] at hab
  | _ :: _, _ :: _, [], _, hbc => by simp [cmpChars] at hbc
  | x :: as, y :: bs, z :: cs, hab, hbc => by
    rw [cmpChars] at hab hbc ⊢
    rcases lt_trichotomy x y with h1 | h1 | h1
    · rcases lt_trichotomy y z with h2 | h2 | h2
      · rw [if_pos (h1.trans h2)]
      · subst h2; rw [if_pos h1]
      · rw [if_neg (asymm h2), if_pos h2] at hbc
        exact Ordering.noConfusion hbc
    · subst h1
      rw [if_neg (lt_irrefl x), if_neg (lt_irrefl x)] at hab
      rcases lt_trichotomy x z with h2 | h2 | h2
      · rw [if_pos h2]
      · subst h2
        rw [if_neg (lt_irrefl x), if_neg (lt_irrefl x)] at hbc ⊢
        exact cmpChars_lt_trans hab hbc
      · rw [if_neg (asymm h2), if_pos h2] at hbc
        exact Ordering.noConfusion hbc
    · rw [if_neg (asymm h1), if_pos h1] at hab
      exact Ordering.noConfusion hab

theorem cmpChars_ne_gt_total (a b : Str) : cmpChars a b ≠ .gt ∨ cmpChars b a ≠ .gt := by
  by_cases h : cmpChars a b = .gt
  · right
    rw [cmpChars_swap a b, h]
    simp [Ordering.swap]
  · left; exact h

theorem cmpChars_ne_gt_trans {a b c : Str} (hab : cmpChars a b ≠ .gt)
    (hbc : cmpChars b c ≠ .gt) : cmpChars a c ≠ .gt := by
  cases h1 : cmpChars a b with
  | gt => exact absurd h1 hab
  | eq =>
    rw [cmpChars_eq_iff] at h1
    subst h1
    exact hbc
  | lt =>
    cases h2 : cmpChars b c with
    | gt => exact absurd h2 hbc
    | eq =>
      rw [cmpChars_eq_iff] at h2
      subst h2
      rw [h1]
      intro h; exact Ordering.noConfusion h
    | lt =>
      rw [cmpChars_lt_trans h1 h2]
      intro h; exact Ordering.noConfusion h

/-! ## The two comparators agree with the specified orders -/

theorem ordInt_le_zero_iff (o : Ordering) : ordInt o ≤ 0 ↔ o ≠ .gt := by
  cases o <;> simp [ordInt]

theorem ordInt_lt : ordInt .lt = -1 := rfl

theorem ordInt_eq : ordInt .eq = 0 := rfl

theorem ordInt_gt : ordInt .gt = 1 := rfl

theorem memberCmp_le_iff (a b : ContainerInfo) :
    memberCmp a b ≤ 0 ↔ specMemberLE a b := by
  have names : cmpChars (nameOrId a) (nameOrId b) = Ordering.gt → nameOrId a ≠ nameOrId b :=
    fun hgt h => by
      rw [← cmpChars_eq_iff] at h
      rw [hgt] at h
      exact Ordering.noConfusion h
  unfold memberCmp specMemberLE
  cases hra : isRunning a <;> cases hrb : isRunning b
  · cases hcn : cmpChars (nameOrId a) (nameOrId b) with
    | lt => norm_num [ordInt_lt]
    | eq =>
      norm_num [ordInt_eq, ordInt_le_zero_iff, (cmpChars_eq_iff _ _).mp hcn]
      exact fun h => Ordering.noConfusion h
    | gt =>
      norm_num [ordInt_gt, names hcn]
      exact fun h => Ordering.noConfusion h
  · norm_num
  · norm_num
  · cases hcn : cmpChars (nameOrId a) (nameOrId b) with
    | lt => norm_num [ordInt_lt]
    | eq =>
      norm_num [ordInt_eq, ordInt_le_zero_iff, (cmpChars_eq_iff _ _).mp hcn]
      exact fun h => Ordering.noConfusion h
    | gt =>
      norm_num [ordInt_gt, names hcn]
      exact fun h => Ordering.noConfusion h

theorem specMemberLE_total (a b : ContainerInfo) :
    specMemberLE a b ∨ specMemberLE b a := by
  unfold specMemberLE
  cases hra : isRunning a <;> cases hrb : isRunning b
  · cases hcn : cmpChars (nameOrId a) (nameOrId b) with
    | lt => exact Or.inl (Or.inr ⟨rfl, Or.inl rfl⟩)
    | eq =>
      have h := (cmpChars_eq_iff _ _).mp hcn
      rcases cmpChars_ne_gt_total a.id b.id with hid | hid
      · exact Or.inl (Or.inr ⟨rfl, Or.inr ⟨h, hid⟩⟩)
      · exact Or.inr (Or.inr ⟨rfl, Or.inr ⟨h.symm, hid⟩⟩)
    | gt =>
      have h := (cmpChars_gt_iff _ _).mp hcn
      exact Or.inr (Or.inr ⟨rfl, Or.inl h⟩)
  · exact Or.inr (Or.inl ⟨rfl, rfl⟩)
  · exact Or.inl (Or.inl ⟨rfl, rfl⟩)
  · cases hcn : cmpChars (nameOrId a) (nameOrId b) with
    | lt => exact Or.inl (Or.inr ⟨rfl, Or.inl rfl⟩)
    | eq =>
      have h := (cmpChars_eq_iff _ _).mp hcn
      rcases cmpChars_ne_gt_total a.id b.id with hid | hid
      · exact Or.inl (Or.inr ⟨rfl, Or.inr ⟨h, hid⟩⟩)
      · exact Or.inr (Or.inr ⟨rfl, Or.inr ⟨h.symm, hid⟩⟩)
    | gt =>
      have h := (cmpChars_gt_iff _ _).mp hcn
      exact Or.inr (Or.inr ⟨rfl, Or.inl h⟩)

theorem specMemberLE_trans {a b c : ContainerInfo} (hab : specMemberLE a b)
    (hbc : specMemberLE b c) : specMemberLE a c := by
  unfold specMemberLE at *
  rcases hab with ⟨ha, hb⟩ | ⟨hab, hlex1⟩
  · rcases hbc with ⟨hb', _⟩ | ⟨hbc, hlex2⟩
    · rw [hb] at hb'
      exact Bool.noConfusion hb'
    · exact Or.inl ⟨ha, hbc ▸ hb⟩
  · rcases hbc with ⟨hb', hc⟩ | ⟨hbc, hlex2⟩
    · exact Or.inl ⟨hab ▸ hb', hc⟩
    · refine Or.inr ⟨hab.trans hbc, ?_⟩
      rcases hlex1 with h1 | ⟨h1, hid1⟩
      · rcases hlex2 with h2 | ⟨h2, hid2⟩
        · exact Or.inl (cmpChars_lt_trans h1 h2)
        · exact Or.inl (h2 ▸ h1)
      · rcases hlex2 with h2 | ⟨h2, hid2⟩
        · exact Or.inl (h1 ▸ h2)
        · exact Or.inr ⟨h1.trans h2, cmpChars_ne_gt_trans hid1 hid2⟩

theorem groupCmp_le_iff (a b : ContainerGroup) :
    groupCmp a b ≤ 0 ↔ specGroupLE a b := by
  have keys : ∀ h : cmpChars a.key b.key = .gt, a.key ≠ b.key :=
    fun hgt h => by
      rw [← cmpChars_eq_iff] at h
      rw [hgt] at h
      exact Ordering.noConfusion h
  unfold groupCmp specGroupLE
  by_cases hra : 0 < a.runningCount <;> by_cases hrb : 0 < b.runningCount
  · rw [if_neg (by simp [hra, hrb])]
    by_cases hlen : a.containers.length = b.containers.length
    · rw [if_neg (by omega)]
      cases hck : cmpChars a.key b.key with
      | lt =>
        norm_num [ordInt_lt, hlen, iff_of_true hra hrb,
          (by decide : Ordering.lt ≠ Ordering.gt)]
      | eq =>
        norm_num [ordInt_eq, hlen, iff_of_true hra hrb,
          (by decide : Ordering.eq ≠ Ordering.gt)]
      | gt =>
        norm_num [ordInt_gt, hlen, iff_of_true hra hrb, Nat.pos_iff_ne_zero.mp hrb]
    · rw [if_pos hlen]
      constructor
      · intro h
        exact Or.inr ⟨iff_of_true hra hrb, Or.inl (by omega)⟩
      · rintro (⟨-, hb0⟩ | ⟨-, hl | ⟨hl, -⟩⟩)
        · omega
        · omega
        · exact absurd hl hlen
  · rw [if_pos (by simp [hra, hrb]), if_pos hra]
    simp only [show (-1 : Int) ≤ 0 from by norm_num, true_iff]
    exact Or.inl ⟨hra, by omega⟩
  · rw [if_pos (by simp [hra, hrb]), if_neg hra]
    constructor
    · intro h; omega
    · rintro (⟨h0, -⟩ | ⟨hiff, -⟩)
      · exact absurd h0 hra
      · exact absurd (hiff.mpr hrb) hra
  · rw [if_neg (by simp [hra, hrb])]
    by_cases hlen : a.containers.length = b.containers.length
    · rw [if_neg (by omega)]
      cases hck : cmpChars a.key b.key with
      | lt =>
        norm_num [ordInt_lt, hlen, iff_of_false hra hrb,
          (by decide : Ordering.lt ≠ Ordering.gt), hra]
      | eq =>
        norm_num [ordInt_eq, hlen, iff_of_false hra hrb,
          (by decide : Ordering.eq ≠ Ordering.gt), hra]
      | gt =>
        norm_num [ordInt_gt, hlen, iff_of_false hra hrb, hra]
        omega
    · rw [if_pos hlen]
      constructor
      · intro h
        exact Or.inr ⟨iff_of_false hra hrb, Or.inl (by omega)⟩
      · rintro (⟨h0, -⟩ | ⟨-, hl | ⟨hl, -⟩⟩)
        · exact absurd h0 hra
        · omega
        · exact absurd hl hlen

theorem specGroupLE_total (a b : ContainerGroup) : specGroupLE a b ∨ specGroupLE b a := by
  unfold specGroupLE
  by_cases hra : 0 < a.runningCount <;> by_cases hrb : 0 < b.runningCount
  all_goals
    try first
      | exact Or.inl (Or.inl ⟨by assumption, by omega⟩)
      | exact Or.inr (Or.inl ⟨by assumption, by omega⟩)
  all_goals
    rcases Nat.lt_trichotomy a.containers.length b.containers.length with hl | hl | hl
  · exact Or.inr (Or.inr ⟨iff_of_true hrb hra, Or.inl hl⟩)
  · rcases cmpChars_ne_gt_total a.key b.key with hk | hk
    · exact Or.inl (Or.inr ⟨iff_of_true hra hrb, Or.inr ⟨hl, hk⟩⟩)
    · exact Or.inr (Or.inr ⟨iff_of_true hrb hra, Or.inr ⟨hl.symm, hk⟩⟩)
  · exact Or.inl (Or.inr ⟨iff_of_true hra hrb, Or.inl hl⟩)
  · exact Or.inr (Or.inr ⟨iff_of_false hrb hra, Or.inl hl⟩)
  · rcases cmpChars_ne_gt_total a.key b.key with hk | hk
    · exact Or.inl (Or.inr ⟨iff_of_false hra hrb, Or.inr ⟨hl, hk⟩⟩)
    · exact Or.inr (Or.inr ⟨iff_of_false hrb hra, Or.inr ⟨hl.symm, hk⟩⟩)
  · exact Or.inl (Or.inr ⟨iff_of_false hra hrb, Or.inl hl⟩)

theorem specGroupLE_trans {a b c : ContainerGroup} (hab : specGroupLE a b)
    (hbc : specGroupLE b c) : specGroupLE a c := by
  unfold specGroupLE at *
  rcases hab with ⟨ha, hb⟩ | ⟨hab, hlex1⟩
  · rcases hbc with ⟨hb', -⟩ | ⟨hbc, -⟩
    · omega
    · refine Or.inl ⟨ha, ?_⟩
      by_cases h : 0 < c.runningCount
      · exact absurd (hbc.mpr h) (by omega)
      · omega
  · rcases hbc with ⟨hb', hc⟩ | ⟨hbc, hlex2⟩
    · exact Or.inl ⟨hab.mpr hb', hc⟩
    · refine Or.inr ⟨hab.trans hbc, ?_⟩
      rcases hlex1 with h1 | ⟨h1, hk1⟩
      · rcases hlex2 with h2 | ⟨h2, hk2⟩
        · exact Or.inl (by omega)
        · exact Or.inl (by omega)
      · rcases hlex2 with h2 | ⟨h2, hk2⟩
        · exact Or.inl (by omega)
        · exact Or.inr ⟨by omega, cmpChars_ne_gt_trans hk1 hk2⟩

/-! ## The frequency index of the first pass -/

theorem counts_fold_getD (uniq : List Str) (hnd : uniq.Nodup) (m : List (Str × Nat))
    (cand : Str) :
    (jsGet (uniq.foldl (fun m c => jsSet m c ((jsGet m c).getD 0 + 1)) m) cand).getD 0
      = (jsGet m cand).getD 0 + (if cand ∈ uniq then 1 else 0) := by
  induction uniq generalizing m with
  | nil => simp
  | cons u rest ih =>
    rcases List.nodup_cons.mp hnd with ⟨hu, hrest⟩
    simp only [List.foldl_cons]
    by_cases hc : cand = u
    · subst hc
      rw [ih hrest, jsGet_jsSet_self]
      simp [hu]
    · rw [ih hrest, jsGet_jsSet_ne _ _ _ _ (fun h => hc h.symm)]
      simp [List.mem_cons, hc]

theorem nodup_uniqueCandidates (c : ContainerInfo) : (uniqueCandidates c).Nodup :=
  nodup_dedupFirst _

theorem buildIndex_counts (l : List ContainerInfo) (cand : Str) :
    (jsGet (buildIndex l).1 cand).getD 0 = freqCount l cand := by
  induction l using List.reverseRecOn with
  | nil => simp [buildIndex, jsGet, freqCount]
  | append_singleton l c ih =>
    unfold buildIndex
    simp only [List.foldl_append, List.foldl_cons, List.foldl_nil]
    rw [counts_fold_getD (uniqueCandidates c) (nodup_uniqueCandidates c)]
    unfold buildIndex at ih
    rw [ih]
    unfold freqCount
    rw [List.countP_append]
    simp [List.countP_cons]

theorem buildIndex_cbid (l : List ContainerInfo) (hnd : (l.map (·.id)).Nodup)
    {c : ContainerInfo} (hc : c ∈ l) :
    jsGet (buildIndex l).2 c.id = some (uniqueCandidates c) := by
  induction l using List.reverseRecOn with
  | nil => simp at hc
  | append_singleton l d ih =>
    rw [List.map_append, List.nodup_append] at hnd
    unfold buildIndex
    simp only [List.foldl_append, List.foldl_cons, List.foldl_nil]
    rcases List.mem_append.mp hc with hcl | hcd
    · have hne : d.id ≠ c.id := by
        intro h
        have hmem : c.id ∈ l.map (fun x => x.id) := List.mem_map_of_mem _ hcl
        rw [← h] at hmem
        exact hnd.2.2 hmem (by simp)
      rw [jsGet_jsSet_ne _ _ _ _ hne]
      unfold buildIndex at ih
      exact ih hnd.1 hcl
    · rcases List.mem_singleton.mp hcd with rfl
      exact jsGet_jsSet_self _ _ _

/-! ## The selection loop computes the specified best candidate -/

theorem le_natMax_of_mem {l : List Nat} {x : Nat} (h : x ∈ l) : x ≤ natMax l := by
  induction l with
  | nil => simp at h
  | cons y l ih =>
    show x ≤ Nat.max y (natMax l)
    rcases List.mem_cons.mp h with rfl | h
    · exact Nat.le_max_left _ _
    · exact le_trans (ih h) (Nat.le_max_right _ _)

theorem natMax_mem : ∀ {l : List Nat}, l ≠ [] → natMax l ∈ l
  | [], h => absurd rfl h
  | [x], _ => by simp [natMax]
  | x :: y :: l, _ => by
    have ih := natMax_mem (l := y :: l) (by simp)
    show max x (natMax (y :: l)) ∈ x :: y :: l
    rcases le_total x (natMax (y :: l)) with h | h
    · rw [max_eq_right h]
      exact List.mem_cons_of_mem _ ih
    · rw [max_eq_left h]
      exact List.mem_cons_self _ _

theorem natMax_append_single (l : List Nat) (x : Nat) :
    natMax (l ++ [x]) = max (natMax l) x := by
  induction l with
  | nil =>
    show max x 0 = max (natMax []) x
    show max x 0 = max 0 x
    omega
  | cons y l ih =>
    show max y (natMax (l ++ [x])) = max (max y (natMax l)) x
    rw [ih]
    exact (max_assoc y (natMax l) x).symm

theorem natMax_single (x : Nat) : natMax [x] = x := by
  show max x 0 = x
  omega

theorem headD_append_of_ne_nil {l l' : List α} (d : α) (h : l ≠ []) :
    (l ++ l').headD d = l.headD d := by
  cases l with
  | nil => exact absurd rfl h
  | cons a l => rfl

theorem headD_mem_of_ne_nil {l : List α} (d : α) (h : l ≠ []) : l.headD d ∈ l := by
  cases l with
  | nil => exact absurd rfl h
  | cons a l => exact List.mem_cons_self _ _

theorem maxCountPool_ne_nil (cnt : Str → Nat) {es : List Str} (hes : es ≠ []) :
    maxCountPool cnt es ≠ [] := by
  have hmem : natMax (es.map cnt) ∈ es.map cnt :=
    natMax_mem (by simpa using hes)
  rcases List.mem_map.mp hmem with ⟨e, he, hce⟩
  have : e ∈ maxCountPool cnt es :=
    List.mem_filter.mpr ⟨he, by simp [hce]⟩
  exact List.ne_nil_of_mem this

theorem maxLenPool_ne_nil (cnt : Str → Nat) {es : List Str} (hes : es ≠ []) :
    maxLenPool cnt es ≠ [] := by
  have hmem : natMax ((maxCountPool cnt es).map List.length) ∈
      (maxCountPool cnt es).map List.length :=
    natMax_mem (by simpa using maxCountPool_ne_nil cnt hes)
  rcases List.mem_map.mp hmem with ⟨e, he, hce⟩
  have : e ∈ maxLenPool cnt es :=
    List.mem_filter.mpr ⟨he, by simp [hce]⟩
  exact List.ne_nil_of_mem this

theorem argBest_mem_maxLenPool (cnt : Str → Nat) {es : List Str} (d : Str) (hes : es ≠ []) :
    argBest cnt es d ∈ maxLenPool cnt es :=
  headD_mem_of_ne_nil d (maxLenPool_ne_nil cnt hes)

theorem argBest_mem (cnt : Str → Nat) {es : List Str} (d : Str) (hes : es ≠ []) :
    argBest cnt es d ∈ es :=
  List.mem_of_mem_filter (List.mem_of_mem_filter (argBest_mem_maxLenPool cnt d hes))

theorem argBest_cnt (cnt : Str → Nat) {es : List Str} (d : Str) (hes : es ≠ []) :
    cnt (argBest cnt es d) = natMax (es.map cnt) := by
  have h := List.mem_of_mem_filter (argBest_mem_maxLenPool cnt d hes)
  have := List.of_mem_filter h
  simpa using this

theorem argBest_len (cnt : Str → Nat) {es : List Str} (d : Str) (hes : es ≠ []) :
    (argBest cnt es d).length = natMax ((maxCountPool cnt es).map List.length) := by
  have := List.of_mem_filter (argBest_mem_maxLenPool cnt d hes)
  simpa using this

theorem argBest_single (cnt : Str → Nat) (x : Str) (d : Str) : argBest cnt [x] d = x := by
  unfold argBest maxLenPool maxCountPool
  simp [natMax_single]

theorem argBest_append (cnt : Str → Nat) (es : List Str) (d x : Str) (hes : es ≠ []) :
    argBest cnt (es ++ [x]) d =
      if cnt (argBest cnt es d) < cnt x ∨
          (cnt x = cnt (argBest cnt es d) ∧ (argBest cnt es d).length < x.length) then x
      else argBest cnt es d := by
  have hbc := argBest_cnt cnt d hes
  have hbl := argBest_len cnt d hes
  have hmc : natMax ((es ++ [x]).map cnt) = max (natMax (es.map cnt)) (cnt x) := by
    rw [show (es ++ [x]).map cnt = es.map cnt ++ [cnt x] from by simp, natMax_append_single]
  rcases Nat.lt_trichotomy (natMax (es.map cnt)) (cnt x) with hcx | hcx | hcx
  · -- the new candidate has a strictly higher count: it wins outright
    have hmc' : natMax ((es ++ [x]).map cnt) = cnt x := by omega
    have hpool : maxCountPool cnt (es ++ [x]) = [x] := by
      unfold maxCountPool
      rw [hmc', List.filter_append]
      have h1 : es.filter (fun k => decide (cnt k = cnt x)) = [] := by
        rw [List.filter_eq_nil_iff]
        intro a ha
        have := le_natMax_of_mem (List.mem_map_of_mem cnt ha)
        simp only [decide_eq_true_eq]
        omega
      rw [h1]
      simp
    rw [if_pos (Or.inl (by omega))]
    unfold argBest maxLenPool
    rw [hpool]
    simp [natMax_single]
  · -- equal counts: compare lengths inside the enlarged pool
    have hmc' : natMax ((es ++ [x]).map cnt) = natMax (es.map cnt) := by omega
    have hpool : maxCountPool cnt (es ++ [x]) = maxCountPool cnt es ++ [x] := by
      unfold maxCountPool
      rw [hmc', List.filter_append]
      congr 1
      simp [hcx]
    have hmlp : natMax ((maxCountPool cnt (es ++ [x])).map List.length)
        = max (natMax ((maxCountPool cnt es).map List.length)) x.length := by
      rw [hpool, show (maxCountPool cnt es ++ [x]).map List.length
          = (maxCountPool cnt es).map List.length ++ [x.length] from by simp,
        natMax_append_single]
    rcases Nat.lt_trichotomy (natMax ((maxCountPool cnt es).map List.length)) x.length
      with hlx | hlx | hlx
    · -- the new candidate is strictly longer: it wins
      have hml : natMax ((maxCountPool cnt (es ++ [x])).map List.length) = x.length := by
        rw [hmlp]; omega
      have hbest : maxLenPool cnt (es ++ [x]) = [x] := by
        unfold maxLenPool
        rw [hml, hpool, List.filter_append]
        have h1 : (maxCountPool cnt es).filter (fun k => decide (k.length = x.length)) = [] := by
          rw [List.filter_eq_nil_iff]
          intro a ha
          have := le_natMax_of_mem (List.mem_map_of_mem List.length ha)
          simp only [decide_eq_true_eq]
          omega
        rw [h1]
        simp
      rw [if_pos (Or.inr ⟨by omega, by omega⟩)]
      unfold argBest
      rw [hbest]
      rfl
    · -- equal lengths: the earlier candidate keeps its place
      have hml : natMax ((maxCountPool cnt (es ++ [x])).map List.length)
          = natMax ((maxCountPool cnt es).map List.length) := by
        rw [hmlp]; omega
      have hbest : maxLenPool cnt (es ++ [x]) = maxLenPool cnt es ++ [x] := by
        unfold maxLenPool
        rw [hml, hpool, List.filter_append]
        congr 1
        simp [hlx]
      rw [if_neg (by omega)]
      unfold argBest
      rw [hbest, headD_append_of_ne_nil _ (maxLenPool_ne_nil cnt hes)]
    · -- the new candidate is shorter: nothing changes
      have hml : natMax ((maxCountPool cnt (es ++ [x])).map List.length)
          = natMax ((maxCountPool cnt es).map List.length) := by
        rw [hmlp]; omega
      have hbest : maxLenPool cnt (es ++ [x]) = maxLenPool cnt es := by
        unfold maxLenPool
        rw [hml, hpool, List.filter_append]
        have h1 : List.filter (fun k => decide (k.length
            = natMax ((maxCountPool cnt es).map List.length))) [x] = [] := by
          simp only [List.filter_singleton]
          have : ¬ x.length = natMax ((maxCountPool cnt es).map List.length) := by omega
          simp [this]
        rw [h1, List.append_nil]
      rw [if_neg (by omega)]
      unfold argBest
      rw [hbest]
  · -- the new candidate has a lower count: nothing changes
    have hmc' : natMax ((es ++ [x]).map cnt) = natMax (es.map cnt) := by omega
    have hpool : maxCountPool cnt (es ++ [x]) = maxCountPool cnt es := by
      unfold maxCountPool
      rw [hmc', List.filter_append]
      have h1 : List.filter (fun k => decide (cnt k = natMax (es.map cnt))) [x] = [] := by
        simp only [List.filter_singleton]
        have : ¬ cnt x = natMax (es.map cnt) := by omega
        simp [this]
      rw [h1, List.append_nil]
    have hbest : maxLenPool cnt (es ++ [x]) = maxLenPool cnt es := by
      unfold maxLenPool
      rw [hpool]
    rw [if_neg (by omega)]
    unfold argBest
    rw [hbest]

/-- The best-candidate loop, for an abstract count function: it returns the
start state when no candidate is eligible, and otherwise the state of the
specified best candidate (highest count, then longest, then earliest). -/
theorem bestFold_eq (cnt : Str → Nat) (name : Str) (cands : List Str) :
    cands.foldl (fun best cand =>
        if cnt cand < 2 then best
        else if best.2.1 < cnt cand ∨ (cnt cand = best.2.1 ∧ best.2.2 < cand.length) then
          (cand, cnt cand, cand.length)
        else best) (name, 1, 0)
      = if (cands.filter (fun k => decide (2 ≤ cnt k))).isEmpty then (name, 1, 0)
        else (argBest cnt (cands.filter (fun k => decide (2 ≤ cnt k))) name,
          cnt (argBest cnt (cands.filter (fun k => decide (2 ≤ cnt k))) name),
          (argBest cnt (cands.filter (fun k => decide (2 ≤ cnt k))) name).length) := by
  induction cands using List.reverseRecOn with
  | nil => simp
  | append_singleton l x ih =>
    simp only [List.foldl_append, List.foldl_cons, List.foldl_nil]
    rw [ih, List.filter_append]
    by_cases hx : 2 ≤ cnt x
    · have hfx : List.filter (fun k => decide (2 ≤ cnt k)) [x] = [x] := by simp [hx]
      rw [hfx]
      by_cases hes : (l.filter (fun k => decide (2 ≤ cnt k))).isEmpty
      · have hesnil := List.isEmpty_iff.mp hes
        rw [if_pos hes, hesnil, List.nil_append]
        rw [if_neg (show ¬ (([x] : List Str).isEmpty = true) from by simp)]
        rw [argBest_single]
        dsimp only
        rw [if_neg (show ¬ cnt x < 2 from by omega),
          if_pos (Or.inl (show 1 < cnt x from by omega))]
      · have hesne : l.filter (fun k => decide (2 ≤ cnt k)) ≠ [] := by
          intro h
          rw [h] at hes
          exact hes rfl
        rw [if_neg hes]
        rw [if_neg (show ¬ ((l.filter (fun k => decide (2 ≤ cnt k)) ++ [x]).isEmpty = true)
          from by simp [List.isEmpty_iff])]
        rw [argBest_append cnt _ name x hesne]
        dsimp only
        rw [if_neg (show ¬ cnt x < 2 from by omega)]
        by_cases hcond : cnt (argBest cnt (l.filter (fun k => decide (2 ≤ cnt k))) name) < cnt x
            ∨ (cnt x = cnt (argBest cnt (l.filter (fun k => decide (2 ≤ cnt k))) name)
              ∧ (argBest cnt (l.filter (fun k => decide (2 ≤ cnt k))) name).length < x.length)
        · rw [if_pos hcond, if_pos hcond]
        · rw [if_neg hcond, if_neg hcond]
    · have hfx : List.filter (fun k => decide (2 ≤ cnt k)) [x] = [] := by simp [hx]
      rw [hfx, List.append_nil, if_pos (show cnt x < 2 from by omega)]

/-- `selectLoop` in closed form: the specified best eligible candidate, or the
start state if none is eligible. -/
theorem selectLoop_eq (counts : List (Str × Nat)) (name : Str) (cands : List Str) :
    selectLoop counts name cands =
      if (cands.filter (fun k => decide (2 ≤ (jsGet counts k).getD 0))).isEmpty then
        (name, 1, 0)
      else
        (argBest (fun k => (jsGet counts k).getD 0)
            (cands.filter (fun k => decide (2 ≤ (jsGet counts k).getD 0))) name,
          (jsGet counts (argBest (fun k => (jsGet counts k).getD 0)
            (cands.filter (fun k => decide (2 ≤ (jsGet counts k).getD 0))) name)).getD 0,
          (argBest (fun k => (jsGet counts k).getD 0)
            (cands.filter (fun k => decide (2 ≤ (jsGet counts k).getD 0))) name).length) := by
  have h := bestFold_eq (fun k => (jsGet counts k).getD 0) name cands
  simpa [selectLoop, selectStep] using h

/-- The key the algorithm selects for a record of the snapshot is exactly the
key described in §4.3 of the specification. -/
theorem recordKey_eq_specKey (l : List ContainerInfo) (hnd : (l.map (·.id)).Nodup)
    {c : ContainerInfo} (hc : c ∈ l) :
    recordKey (buildIndex l).1 (buildIndex l).2 c = specKey l c := by
  unfold recordKey
  rw [buildIndex_cbid l hnd hc]
  simp only [Option.getD_some]
  rw [selectLoop_eq]
  simp only [buildIndex_counts l]
  unfold specKey eligibleOf
  by_cases he : ((uniqueCandidates c).filter (fun k => decide (2 ≤ freqCount l k))).isEmpty
  · rw [if_pos he, if_pos he]
  · rw [if_neg he, if_neg he]

/-! ## The groups map of the second pass -/

theorem flatten_snd_jsSet_push [DecidableEq α] {m : List (α × List γ)} {k : α}
    {items : List γ} (c : γ) (h : jsGet m k = some items) :
    ((jsSet m k (items ++ [c])).map Prod.snd).flatten.Perm
      ((m.map Prod.snd).flatten ++ [c]) := by
  induction m with
  | nil => simp [jsGet] at h
  | cons p m ih =>
    by_cases hp : p.1 = k
    · simp only [jsGet, if_pos hp, Option.some.injEq] at h
      subst h
      simp only [jsSet, if_pos hp, List.map_cons, List.flatten_cons]
      rw [List.append_assoc p.2 [c], List.append_assoc p.2]
      exact List.Perm.append_left _ List.perm_append_comm
    · simp only [jsGet, if_neg hp] at h
      simp only [jsSet, if_neg hp, List.map_cons, List.flatten_cons]
      rw [List.append_assoc p.2]
      exact List.Perm.append_left _ (ih h)

theorem buildGroups_append_single (counts : List (Str × Nat)) (cbid : List (Str × List Str))
    (l : List ContainerInfo) (c : ContainerInfo) :
    buildGroups counts cbid (l ++ [c]) =
      jsSet (buildGroups counts cbid l) (recordKey counts cbid c)
        ((jsGet (buildGroups counts cbid l) (recordKey counts cbid c)).getD [] ++ [c]) := by
  unfold buildGroups
  simp only [List.foldl_append, List.foldl_cons, List.foldl_nil]

theorem buildGroups_keys_nodup (counts : List (Str × Nat)) (cbid : List (Str × List Str))
    (l : List ContainerInfo) :
    ((buildGroups counts cbid l).map Prod.fst).Nodup := by
  induction l using List.reverseRecOn with
  | nil => simp [buildGroups]
  | append_singleton l c ih =>
    rw [buildGroups_append_single]
    cases hg : jsGet (buildGroups counts cbid l) (recordKey counts cbid c) with
    | some items =>
      rw [keys_jsSet_of_get_some _ hg]
      exact ih
    | none =>
      rw [jsSet_of_get_none _ hg, List.map_append, List.nodup_append]
      refine ⟨ih, by simp, ?_⟩
      intro a ha hb
      simp only [List.map_cons, List.map_nil, List.mem_singleton] at hb
      subst hb
      exact (jsGet_none_iff.mp hg) ha

theorem buildGroups_complete (counts : List (Str × Nat)) (cbid : List (Str × List Str))
    (l : List ContainerInfo) :
    ∀ x ∈ l, recordKey counts cbid x ∈ (buildGroups counts cbid l).map Prod.fst := by
  induction l using List.reverseRecOn with
  | nil => simp
  | append_singleton l c ih =>
    intro x hx
    rw [buildGroups_append_single]
    cases hg : jsGet (buildGroups counts cbid l) (recordKey counts cbid c) with
    | some items =>
      rw [keys_jsSet_of_get_some _ hg]
      rcases List.mem_append.mp hx with hxl | hxc
      · exact ih x hxl
      · rcases List.mem_singleton.mp hxc with rfl
        exact List.mem_map_of_mem Prod.fst (jsGet_some_mem hg)
    | none =>
      rw [jsSet_of_get_none _ hg, List.map_append]
      rcases List.mem_append.mp hx with hxl | hxc
      · exact List.mem_append_left _ (ih x hxl)
      · rcases List.mem_singleton.mp hxc with rfl
        exact List.mem_append_right _ (by simp)

theorem buildGroups_covering (counts : List (Str × Nat)) (cbid : List (Str × List Str))
    (l : List ContainerInfo) :
    ∀ k ∈ (buildGroups counts cbid l).map Prod.fst, ∃ x ∈ l, recordKey counts cbid x = k := by
  induction l using List.reverseRecOn with
  | nil => simp [buildGroups]
  | append_singleton l c ih =>
    intro k hk
    rw [buildGroups_append_single] at hk
    cases hg : jsGet (buildGroups counts cbid l) (recordKey counts cbid c) with
    | some items =>
      rw [hg] at hk
      rw [keys_jsSet_of_get_some _ hg] at hk
      rcases ih k hk with ⟨x, hx, hkey⟩
      exact ⟨x, List.mem_append_left _ hx, hkey⟩
    | none =>
      rw [hg] at hk
      rw [jsSet_of_get_none _ hg, List.map_append] at hk
      rcases List.mem_append.mp hk with hkl | hkc
      · rcases ih k hkl with ⟨x, hx, hkey⟩
        exact ⟨x, List.mem_append_left _ hx, hkey⟩
      · simp only [List.map_cons, List.map_nil, List.mem_singleton] at hkc
        exact ⟨c, List.mem_append_right _ (by simp), hkc.symm⟩

theorem buildGroups_filter (counts : List (Str × Nat)) (cbid : List (Str × List Str))
    (l : List ContainerInfo) :
    ∀ kv ∈ buildGroups counts cbid l,
      kv.2 = l.filter (fun x => decide (recordKey counts cbid x = kv.1)) := by
  induction l using List.reverseRecOn with
  | nil => simp [buildGroups]
  | append_singleton l c ih =>
    intro kv hkv
    rw [buildGroups_append_single] at hkv
    rw [List.filter_append]
    cases hg : jsGet (buildGroups counts cbid l) (recordKey counts cbid c) with
    | some items =>
      rw [hg] at hkv
      simp only [Option.getD_some] at hkv
      rw [mem_jsSet_of_nodup (buildGroups_keys_nodup counts cbid l) kv] at hkv
      rcases hkv with rfl | ⟨hmem, hne⟩
      · have hitems : items = l.filter (fun x => decide (recordKey counts cbid x
            = recordKey counts cbid c)) := by
          have := ih (recordKey counts cbid c, items) (jsGet_some_mem hg)
          simpa using this
        dsimp only
        rw [← hitems]
        simp [List.filter_singleton]
      · rw [ih kv hmem]
        have hdec : decide (recordKey counts cbid c = kv.1) = false := by
          simp only [decide_eq_false_iff_not]
          exact fun h => hne h.symm
        simp [List.filter_singleton, hdec]
    | none =>
      rw [hg] at hkv
      simp only [Option.getD_none, List.nil_append] at hkv
      rw [jsSet_of_get_none _ hg] at hkv
      rcases List.mem_append.mp hkv with hold | hnew
      · rw [ih kv hold]
        have hdec : decide (recordKey counts cbid c = kv.1) = false := by
          simp only [decide_eq_false_iff_not]
          intro h
          refine (jsGet_none_iff.mp hg) ?_
          rw [h]
          exact List.mem_map_of_mem Prod.fst hold
        simp [List.filter_singleton, hdec]
      · rcases List.mem_singleton.mp hnew with rfl
        have hflt : l.filter (fun x => decide (recordKey counts cbid x
            = recordKey counts cbid c)) = [] := by
          rw [List.filter_eq_nil_iff]
          intro x hx
          simp only [decide_eq_true_eq]
          intro h
          refine (jsGet_none_iff.mp hg) ?_
          rw [← h]
          exact buildGroups_complete counts cbid l x hx
        dsimp only
        rw [hflt, List.nil_append]
        simp [List.filter_singleton]

theorem buildGroups_flatten_perm (counts : List (Str × Nat)) (cbid : List (Str × List Str))
    (l : List ContainerInfo) :
    ((buildGroups counts cbid l).map Prod.snd).flatten.Perm l := by
  induction l using List.reverseRecOn with
  | nil => simp [buildGroups]
  | append_singleton l c ih =>
    rw [buildGroups_append_single]
    cases hg : jsGet (buildGroups counts cbid l) (recordKey counts cbid c) with
    | some items =>
      simp only [Option.getD_some]
      exact (flatten_snd_jsSet_push c hg).trans (ih.append (List.Perm.refl [c]))
    | none =>
      simp only [Option.getD_none, List.nil_append]
      rw [jsSet_of_get_none _ hg, List.map_append, List.flatten_append]
      simp only [List.map_cons, List.map_nil, List.flatten_cons, List.flatten_nil,
        List.append_nil]
      exact ih.append (List.Perm.refl [c])

/-! ## The assembled output -/

theorem groupOut_eq (containers : List ContainerInfo) :
    groupContainersByNamePrefix containers =
      jsSortBy groupCmp
        ((buildGroups (buildIndex containers).1 (buildIndex containers).2 containers).map
          (fun kv => ContainerGroup.mk kv.1 (jsSortBy memberCmp kv.2)
            (kv.2.countP isRunning) (kv.2.length - kv.2.countP isRunning))) := rfl

theorem mem_groupOut {containers : List ContainerInfo} {g : ContainerGroup} :
    g ∈ groupContainersByNamePrefix containers ↔
      ∃ kv ∈ buildGroups (buildIndex containers).1 (buildIndex containers).2 containers,
        ContainerGroup.mk kv.1 (jsSortBy memberCmp kv.2)
          (kv.2.countP isRunning) (kv.2.length - kv.2.countP isRunning) = g := by
  rw [groupOut_eq, (perm_jsSortBy groupCmp _).mem_iff, List.mem_map]

theorem flatten_map_perm {l : List γ} (f g : γ → List δ)
    (h : ∀ x ∈ l, (f x).Perm (g x)) : ((l.map f).flatten).Perm ((l.map g).flatten) := by
  induction l with
  | nil => simp
  | cons x l ih =>
    simp only [List.map_cons, List.flatten_cons]
    exact (h x (List.mem_cons_self _ _)).append
      (ih (fun y hy => h y (List.mem_cons_of_mem _ hy)))

/-- Every record of the snapshot sits in an output group whose key is the
specified selected key (§4.3). -/
theorem exists_group_with_specKey (containers : List ContainerInfo)
    (hnd : (containers.map (·.id)).Nodup) {c : ContainerInfo} (hc : c ∈ containers) :
    ∃ g ∈ groupContainersByNamePrefix containers,
      c ∈ g.containers ∧ g.key = specKey containers c := by
  have hkmem := buildGroups_complete (buildIndex containers).1 (buildIndex containers).2
    containers c hc
  rcases List.mem_map.mp hkmem with ⟨kv, hkv, hk1⟩
  refine ⟨ContainerGroup.mk kv.1 (jsSortBy memberCmp kv.2)
    (kv.2.countP isRunning) (kv.2.length - kv.2.countP isRunning),
    mem_groupOut.mpr ⟨kv, hkv, rfl⟩, ?_, ?_⟩
  · have hflt := buildGroups_filter (buildIndex containers).1 (buildIndex containers).2
      containers kv hkv
    have hcmem : c ∈ kv.2 := by
      rw [hflt]
      refine List.mem_filter.mpr ⟨hc, ?_⟩
      simp [hk1]
    exact (perm_jsSortBy memberCmp kv.2).mem_iff.mpr hcmem
  · show kv.1 = specKey containers c
    rw [← recordKey_eq_specKey containers hnd hc, hk1]

/-- Every member list produced by the engine is sorted in the specified order. -/
theorem members_sorted (kv2 : List ContainerInfo) :
    (jsSortBy memberCmp kv2).Pairwise specMemberLE := by
  have h := pairwise_jsSortBy memberCmp
    (fun a b => by
      rcases specMemberLE_total a b with h | h
      · exact Or.inl ((memberCmp_le_iff a b).mpr h)
      · exact Or.inr ((memberCmp_le_iff b a).mpr h))
    (fun a b c hab hbc => (memberCmp_le_iff a c).mpr
      (specMemberLE_trans ((memberCmp_le_iff a b).mp hab) ((memberCmp_le_iff b c).mp hbc)))
    kv2
  exact h.imp (fun hab => (memberCmp_le_iff _ _).mp hab)

/-- The final group sequence is sorted in the specified order. -/
theorem groups_sorted (containers : List ContainerInfo) :
    (groupContainersByNamePrefix containers).Pairwise specGroupLE := by
  rw [groupOut_eq]
  have h := pairwise_jsSortBy groupCmp
    (fun a b => by
      rcases specGroupLE_total a b with h | h
      · exact Or.inl ((groupCmp_le_iff a b).mpr h)
      · exact Or.inr ((groupCmp_le_iff b a).mpr h))
    (fun a b c hab hbc => (groupCmp_le_iff a c).mpr
      (specGroupLE_trans ((groupCmp_le_iff a b).mp hab) ((groupCmp_le_iff b c).mp hbc)))
    ((buildGroups (buildIndex containers).1 (buildIndex containers).2 containers).map
      (fun kv => ContainerGroup.mk kv.1 (jsSortBy memberCmp kv.2)
        (kv.2.countP isRunning) (kv.2.length - kv.2.countP isRunning)))
  exact h.imp (fun hab => (groupCmp_le_iff _ _).mp hab)

/-- The groups partition the snapshot: their member lists flatten to a
permutation of the input. -/
theorem groupOut_flatten_perm (containers : List ContainerInfo) :
    ((groupContainersByNamePrefix containers).map
      (fun g => g.containers)).flatten.Perm containers := by
  have h1 : ((groupContainersByNamePrefix containers).map (fun g => g.containers)).Perm
      (((buildGroups (buildIndex containers).1 (buildIndex containers).2 containers).map
        (fun kv => ContainerGroup.mk kv.1 (jsSortBy memberCmp kv.2)
          (kv.2.countP isRunning) (kv.2.length - kv.2.countP isRunning))).map
            (fun g => g.containers)) := by
    rw [groupOut_eq]
    exact (perm_jsSortBy groupCmp _).map _
  have h2 : (((buildGroups (buildIndex containers).1 (buildIndex containers).2 containers).map
      (fun kv => ContainerGroup.mk kv.1 (jsSortBy memberCmp kv.2)
        (kv.2.countP isRunning) (kv.2.length - kv.2.countP isRunning))).map
          (fun g => g.containers))
      = (buildGroups (buildIndex containers).1 (buildIndex containers).2 containers).map
          (fun kv => jsSortBy memberCmp kv.2) := by
    rw [List.map_map]
    rfl
  refine (h1.flatten).trans ?_
  rw [h2]
  refine (flatten_map_perm _ Prod.snd (fun kv _ => perm_jsSortBy memberCmp kv.2)).trans ?_
  exact buildGroups_flatten_perm _ _ _

/-- No output group is empty. -/
theorem groupOut_ne_nil (containers : List ContainerInfo) :
    ∀ g ∈ groupContainersByNamePrefix containers, g.containers ≠ [] := by
  intro g hg
  rcases mem_groupOut.mp hg with ⟨kv, hkv, rfl⟩
  have hkeys : kv.1 ∈ (buildGroups (buildIndex containers).1 (buildIndex containers).2
      containers).map Prod.fst := List.mem_map_of_mem Prod.fst hkv
  rcases buildGroups_covering _ _ containers kv.1 hkeys with ⟨x, hx, hkey⟩
  have hflt := buildGroups_filter _ _ containers kv hkv
  have hxmem : x ∈ kv.2 := by
    rw [hflt]
    exact List.mem_filter.mpr ⟨hx, by simp [hkey]⟩
  intro hnil
  dsimp only at hnil
  have := (perm_jsSortBy memberCmp kv.2).mem_iff.mpr hxmem
  rw [hnil] at this
  exact List.not_mem_nil x this

/-! ## Trimming -/

theorem dropWhile_dropWhile (p : α → Bool) (l : List α) :
    List.dropWhile p (List.dropWhile p l) = List.dropWhile p l := by
  induction l with
  | nil => rfl
  | cons a l ih =>
    rw [List.dropWhile_cons]
    by_cases h : p a = true
    · rw [if_pos h]
      exact ih
    · rw [if_neg h, List.dropWhile_cons, if_neg h]

theorem dropWhile_jsTrim (s : Str) :
    (jsTrim s).dropWhile isJsWhitespace = jsTrim s := by
  unfold jsTrim
  have hpre : (((s.dropWhile isJsWhitespace).reverse.dropWhile isJsWhitespace).reverse)
      <+: s.dropWhile isJsWhitespace := by
    have hsuf := List.dropWhile_suffix (l := (s.dropWhile isJsWhitespace).reverse)
      isJsWhitespace
    have h := List.reverse_prefix.mpr hsuf
    rwa [List.reverse_reverse] at h
  cases hrb : ((s.dropWhile isJsWhitespace).reverse.dropWhile isJsWhitespace).reverse with
  | nil => rfl
  | cons x xs =>
    rw [hrb] at hpre
    rcases hpre with ⟨t, ht⟩
    have hx : isJsWhitespace x = false := by
      have hh := List.head?_dropWhile_not isJsWhitespace s
      have hhead : (s.dropWhile isJsWhitespace).head? = some x := by
        rw [← ht]
        rfl
      rw [hhead] at hh
      exact hh
    rw [List.dropWhile_cons, if_neg (by simp [hx])]

theorem jsTrim_idem (s : Str) : jsTrim (jsTrim s) = jsTrim s := by
  show ((((jsTrim s).dropWhile isJsWhitespace).reverse).dropWhile isJsWhitespace).reverse
    = jsTrim s
  rw [dropWhile_jsTrim s]
  show (((((s.dropWhile isJsWhitespace).reverse.dropWhile
      isJsWhitespace).reverse).reverse).dropWhile isJsWhitespace).reverse = jsTrim s
  rw [List.reverse_reverse, dropWhile_dropWhile]
  rfl

/-! ## The candidate generator follows the specified generation sequence -/

theorem foldl_fun_congr (f g : β → α → β) (l : List α) (b : β)
    (h : ∀ acc a, f acc a = g acc a) : l.foldl f b = l.foldl g b := by
  induction l generalizing b with
  | nil => rfl
  | cons a l ih => rw [List.foldl_cons, List.foldl_cons, h, ih]

theorem foldl_guard_filterMap [DecidableEq γ] (g : α → Bool) (v : α → γ)
    (l : List α) (acc : List γ) :
    l.foldl (fun acc i => if g i then setAdd acc (v i) else acc) acc
      = (l.filterMap (fun i => if g i then some (v i) else none)).foldl setAdd acc := by
  induction l generalizing acc with
  | nil => rfl
  | cons i l ih =>
    by_cases hg : g i = true
    · rw [List.foldl_cons, if_pos hg, ih,
        @List.filterMap_cons_some _ _ (fun i => if g i then some (v i) else none) i l (v i)
          (by simp [hg]),
        List.foldl_cons]
    · rw [List.foldl_cons, if_neg hg, ih,
        @List.filterMap_cons_none _ _ (fun i => if g i then some (v i) else none) i l
          (by simp [hg])]

theorem setAdd_self_mem [DecidableEq α] (l : List α) (x : α) (h : x ∈ l) :
    setAdd l x = l := by
  rw [setAdd, if_pos h]

theorem containerGroupCandidates_eq_dedup (name : Str) (h : jsTrim name ≠ []) :
    containerGroupCandidates name = dedupFirst (genSequence name) := by
  have hne : (jsTrim name).isEmpty = false := by
    cases hjt : jsTrim name with
    | nil => exact absurd hjt h
    | cons a l => rfl
  unfold containerGroupCandidates genSequence dedupFirst stripIndexSuffix
  simp only [hne, Bool.false_eq_true, if_false]
  rw [List.foldl_append, List.foldl_append]
  have h0 : List.foldl setAdd ([] : List Str) [jsTrim name] = [jsTrim name] := by
    simp [setAdd]
  rw [h0]
  have hbody : (List.range (jsTrim name).length).foldl
      (fun acc i => if isSep ((jsTrim name).getD i ' ') = true then
          if ((jsTrim name).take i).isEmpty = true then acc
          else setAdd acc ((jsTrim name).take i)
        else acc)
      (if ((stripMatch (jsTrim name)).getD (jsTrim name)).isEmpty = true then [jsTrim name]
        else setAdd [jsTrim name] ((stripMatch (jsTrim name)).getD (jsTrim name)))
      = (List.range (jsTrim name).length).foldl
        (fun acc i => if (isSep ((jsTrim name).getD i ' ') && !((jsTrim name).take i).isEmpty)
            = true then setAdd acc ((jsTrim name).take i) else acc)
        (if ((stripMatch (jsTrim name)).getD (jsTrim name)).isEmpty = true then [jsTrim name]
          else setAdd [jsTrim name] ((stripMatch (jsTrim name)).getD (jsTrim name))) := by
    refine foldl_fun_congr _ _ _ _ ?_
    intro acc i
    by_cases h1 : isSep ((jsTrim name).getD i ' ') = true <;>
      by_cases h2 : ((jsTrim name).take i).isEmpty = true <;>
      simp [h1, h2]
  rw [hbody, foldl_guard_filterMap]
  congr 1
  cases hsm : stripMatch (jsTrim name) with
  | none =>
    simp only [Option.getD_none, hne, Bool.false_eq_true, if_false]
    rw [setAdd_self_mem _ _ (by simp), List.foldl_nil]
  | some b =>
    simp only [Option.getD_some]
    by_cases hb : b.isEmpty = true
    · rw [if_pos hb, if_pos hb, List.foldl_nil]
    · rw [if_neg hb, if_neg hb, List.foldl_cons, List.foldl_nil]

/-- A successful strip is the removal of a trailing separator-plus-digits
suffix (such a suffix is unique when it exists, so "the" suffix is removed). -/
theorem stripMatch_some_spec {s b : Str} (h : stripMatch s = some b) :
    ∃ c ds, (c = '-' ∨ c = '_') ∧ ds ≠ [] ∧ (∀ d ∈ ds, d.isDigit = true) ∧
      s = b ++ c :: ds := by
  unfold stripMatch at h
  have hb : b ∈ (List.range s.length).filterMap (matchAt s) := by
    cases hl : (List.range s.length).filterMap (matchAt s) with
    | nil =>
      rw [hl] at h
      simp at h
    | cons x xs =>
      rw [hl] at h
      simp only [List.head?_cons, Option.some.injEq] at h
      rw [← h]
      exact List.mem_cons_self _ _
  rcases List.mem_filterMap.mp hb with ⟨i, hi, hmi⟩
  unfold matchAt at hmi
  cases hd : s.drop i with
  | nil =>
    rw [hd] at hmi
    exact absurd hmi (by simp)
  | cons c ds =>
    rw [hd] at hmi
    dsimp only at hmi
    by_cases hcond : (isSep c && !ds.isEmpty && ds.all Char.isDigit) = true
    · rw [if_pos hcond] at hmi
      simp only [Option.some.injEq] at hmi
      simp only [Bool.and_eq_true] at hcond
      refine ⟨c, ds, ?_, ?_, ?_, ?_⟩
      · have := hcond.1.1
        simp only [isSep, Bool.or_eq_true, beq_iff_eq] at this
        exact this
      · intro hds
        rw [hds] at hcond
        simp at hcond
      · exact List.all_eq_true.mp hcond.2
      · rw [← hmi, ← hd]
        exact (List.take_append_drop i s).symm
    · rw [if_neg hcond] at hmi
      exact absurd hmi (by simp)

/-- When the strip fails, the string has no trailing separator-plus-digits
suffix at all. -/
theorem stripMatch_none_spec {s : Str} (h : stripMatch s = none) :
    ∀ b c ds, (c = '-' ∨ c = '_') → ds ≠ [] → (∀ d ∈ ds, d.isDigit = true) →
      s ≠ b ++ c :: ds := by
  intro b c ds hc hds hdig heq
  have hlen : b.length < s.length := by
    rw [heq, List.length_append, List.length_cons]
    omega
  have hdrop : s.drop b.length = c :: ds := by
    rw [heq]
    exact List.drop_left b (c :: ds)
  have h1 : isSep c = true := by
    rcases hc with rfl | rfl <;> decide
  have h2 : ds.isEmpty = false := by
    cases ds with
    | nil => exact absurd rfl hds
    | cons d ds => rfl
  have h3 : ds.all Char.isDigit = true := List.all_eq_true.mpr hdig
  have hm : matchAt s b.length = some (s.take b.length) := by
    unfold matchAt
    rw [hdrop]
    dsimp only
    rw [if_pos (by rw [h1, h2, h3]; rfl)]
  have hmem : s.take b.length ∈ (List.range s.length).filterMap (matchAt s) :=
    List.mem_filterMap.mpr ⟨b.length, List.mem_range.mpr hlen, hm⟩
  unfold stripMatch at h
  rw [List.head?_eq_none_iff] at h
  rw [h] at hmem
  exact List.not_mem_nil _ hmem

/-! ## Records whose trimmed name-or-id is empty -/

theorem computeName_of_name_empty {c : ContainerInfo} (h : c.name = []) :
    computeName c = jsTrim c.id := by
  unfold computeName nameOrId
  rw [h]
  rfl

theorem containerGroupCandidates_jsTrim (s : Str) :
    containerGroupCandidates (jsTrim s) = containerGroupCandidates s := by
  unfold containerGroupCandidates
  rw [jsTrim_idem]

theorem uniqueCandidates_of_name_empty {c : ContainerInfo} (h : c.name = []) :
    uniqueCandidates c = dedupFirst (containerGroupCandidates c.id) := by
  unfold uniqueCandidates
  rw [computeName_of_name_empty h, containerGroupCandidates_jsTrim]

theorem mem_foldl_guard {P : γ → Prop} (step : List γ → α → List γ)
    (hstep : ∀ acc a, ∀ x ∈ step acc a, x ∈ acc ∨ P x)
    (l : List α) (acc : List γ) (hacc : ∀ x ∈ acc, P x) :
    ∀ x ∈ l.foldl step acc, P x := by
  induction l generalizing acc with
  | nil => exact hacc
  | cons a l ih =>
    rw [List.foldl_cons]
    refine ih _ ?_
    intro x hx
    rcases hstep acc a x hx with h | h
    · exact hacc x h
    · exact h

/-- Every generated candidate is a non-empty string. -/
theorem candidates_nonempty_strings (name : Str) :
    ∀ k ∈ containerGroupCandidates name, k ≠ [] := by
  unfold containerGroupCandidates
  by_cases ht : (jsTrim name).isEmpty = true
  · rw [if_pos ht]
    intro k hk
    simp at hk
  · rw [if_neg ht]
    refine mem_foldl_guard _ ?_ _ _ ?_
    · intro acc i x hx
      by_cases h1 : isSep ((jsTrim name).getD i ' ') = true
      · rw [if_pos h1] at hx
        by_cases h2 : ((jsTrim name).take i).isEmpty = true
        · rw [if_pos h2] at hx
          exact Or.inl hx
        · rw [if_neg h2] at hx
          rcases (mem_setAdd _ _ _).mp hx with hmem | hval
          · exact Or.inl hmem
          · refine Or.inr ?_
            rw [hval]
            intro hnil
            rw [hnil] at h2
            exact h2 rfl
      · rw [if_neg h1] at hx
        exact Or.inl hx
    · intro x hx
      by_cases hb : (stripIndexSuffix (jsTrim name)).isEmpty = true
      · rw [if_pos hb] at hx
        rcases List.mem_singleton.mp hx with rfl
        intro hnil
        rw [hnil] at ht
        exact ht rfl
      · rw [if_neg hb] at hx
        rcases (mem_setAdd _ _ _).mp hx with hmem | hval
        · rcases List.mem_singleton.mp hmem with rfl
          intro hnil
          rw [hnil] at ht
          exact ht rfl
        · rw [hval]
          intro hnil
          rw [hnil] at hb
          exact hb rfl

theorem specKey_mem_or_name (containers : List ContainerInfo) (c : ContainerInfo) :
    specKey containers c = computeName c ∨ specKey containers c ∈ uniqueCandidates c := by
  unfold specKey
  by_cases he : (eligibleOf containers c).isEmpty = true
  · rw [if_pos he]
    exact Or.inl rfl
  · rw [if_neg he]
    refine Or.inr ?_
    have hne : eligibleOf containers c ≠ [] := fun hh => he (by rw [hh]; rfl)
    exact List.mem_of_mem_filter (argBest_mem _ _ hne)

theorem specKey_of_no_eligible (containers : List ContainerInfo) (c : ContainerInfo)
    (h : ∀ k ∈ uniqueCandidates c, freqCount containers k < 2) :
    specKey containers c = computeName c := by
  have helig : eligibleOf containers c = [] := by
    unfold eligibleOf
    rw [List.filter_eq_nil_iff]
    intro k hk
    simp only [decide_eq_true_eq]
    have := h k hk
    omega
  unfold specKey
  rw [if_pos (by rw [helig]; rfl)]

theorem computeName_empty_candidates {c : ContainerInfo} (h : computeName c = []) :
    uniqueCandidates c = [] := by
  unfold uniqueCandidates
  rw [h]
  rfl

/-- For a record of a snapshot with distinct ids, the selected key is empty
exactly when the record's trimmed name-or-id is empty. -/
theorem recordKey_empty_iff (containers : List ContainerInfo)
    (hnd : (containers.map (·.id)).Nodup) (c : ContainerInfo) (hc : c ∈ containers) :
    recordKey (buildIndex containers).1 (buildIndex containers).2 c = [] ↔
      computeName c = [] := by
  rw [recordKey_eq_specKey containers hnd hc]
  constructor
  · intro h
    rcases specKey_mem_or_name containers c with hs | hs
    · rw [← hs]
      exact h
    · exfalso
      have hmem : specKey containers c ∈ containerGroupCandidates (computeName c) := by
        unfold uniqueCandidates at hs
        exact (mem_dedupFirst _ _).mp hs
      exact candidates_nonempty_strings (computeName c) _ hmem h
  · intro h
    have h1 := computeName_empty_candidates h
    have h2 : ∀ k ∈ uniqueCandidates c, freqCount containers k < 2 := by
      rw [h1]
      intro k hk
      simp at hk
    rw [specKey_of_no_eligible containers c h2, h]

/-! ## The fallback key forms a singleton group (for non-empty trimmed names) -/

theorem mem_foldl_of_mono (step : List γ → α → List γ)
    (hstep : ∀ acc a x, x ∈ acc → x ∈ step acc a) (l : List α) (acc : List γ)
    (x : γ) (hx : x ∈ acc) : x ∈ l.foldl step acc := by
  induction l generalizing acc with
  | nil => exact hx
  | cons a l ih => exact ih _ (hstep acc a x hx)

theorem jsTrim_computeName (c : ContainerInfo) : jsTrim (computeName c) = computeName c := by
  unfold computeName
  exact jsTrim_idem _

theorem computeName_mem_uniqueCandidates {c : ContainerInfo} (h : computeName c ≠ []) :
    computeName c ∈ uniqueCandidates c := by
  unfold uniqueCandidates
  rw [mem_dedupFirst]
  unfold containerGroupCandidates
  rw [jsTrim_computeName]
  rw [if_neg (show ¬((computeName c).isEmpty = true) from by
    cases hcc : computeName c with
    | nil => exact absurd hcc h
    | cons a l => simp)]
  refine mem_foldl_of_mono _ ?_ _ _ _ ?_
  · intro acc a x hx
    by_cases h1 : isSep ((computeName c).getD a ' ') = true
    · rw [if_pos h1]
      by_cases h2 : ((computeName c).take a).isEmpty = true
      · rw [if_pos h2]
        exact hx
      · rw [if_neg h2]
        exact (mem_setAdd _ _ _).mpr (Or.inl hx)
    · rw [if_neg h1]
      exact hx
  · by_cases hb : (stripIndexSuffix (computeName c)).isEmpty = true
    · rw [if_pos hb]
      exact List.mem_singleton.mpr rfl
    · rw [if_neg hb]
      exact (mem_setAdd _ _ _).mpr (Or.inl (List.mem_singleton.mpr rfl))

theorem two_mem_le_countP {l : List γ} {p : γ → Bool} {a b : γ} (hab : a ≠ b)
    (ha : a ∈ l) (hb : b ∈ l) (hpa : p a = true) (hpb : p b = true) :
    2 ≤ l.countP p := by
  rw [List.countP_eq_length_filter]
  have ha' : a ∈ l.filter p := List.mem_filter.mpr ⟨ha, hpa⟩
  have hb' : b ∈ l.filter p := List.mem_filter.mpr ⟨hb, hpb⟩
  cases hf : l.filter p with
  | nil =>
    rw [hf] at ha'
    simp at ha'
  | cons x xs =>
    cases xs with
    | nil =>
      rw [hf] at ha' hb'
      rcases List.mem_singleton.mp ha' with rfl
      exact absurd (List.mem_singleton.mp hb').symm hab
    | cons y rest => simp

theorem countP_eq_self_le_one {l : List γ} [DecidableEq γ] (hnd : l.Nodup) (c : γ) :
    l.countP (fun x => decide (x = c)) ≤ 1 := by
  induction l with
  | nil => simp
  | cons a l ih =>
    rcases List.nodup_cons.mp hnd with ⟨hal, hl⟩
    rw [List.countP_cons]
    by_cases hac : a = c
    · subst hac
      have hz : l.countP (fun x => decide (x = a)) = 0 := by
        rw [List.countP_eq_length_filter]
        have hfn : l.filter (fun x => decide (x = a)) = [] := by
          rw [List.filter_eq_nil_iff]
          intro y hy
          simp only [decide_eq_true_eq]
          intro h
          rw [h] at hy
          exact hal hy
        rw [hfn]
        rfl
      simp [hz]
    · have hrec := ih hl
      simp only [decide_eq_true_eq]
      rw [if_neg hac]
      omega

theorem filter_mem_len_le_one {l : List γ} {p : γ → Bool} {c : γ}
    (hc : c ∈ l) (hpc : p c = true) (hone : l.countP p ≤ 1) :
    l.filter p = [c] := by
  have hcm : c ∈ l.filter p := List.mem_filter.mpr ⟨hc, hpc⟩
  have hlen : (l.filter p).length = 1 := by
    have h1 : 0 < (l.filter p).length := List.length_pos.mpr (List.ne_nil_of_mem hcm)
    have h2 := List.countP_eq_length_filter p l
    omega
  rcases List.length_eq_one.mp hlen with ⟨a, ha⟩
  rw [ha] at hcm ⊢
  rw [List.mem_singleton.mp hcm]

/-- A record with no eligible candidate and a non-empty trimmed name-or-id
really does form a singleton group keyed by that name-or-id. -/
theorem fallback_singleton (containers : List ContainerInfo)
    (hnd : (containers.map (·.id)).Nodup) {c : ContainerInfo} (hc : c ∈ containers)
    (helig : ∀ k ∈ uniqueCandidates c, freqCount containers k < 2)
    (hne : computeName c ≠ []) :
    ∃ g ∈ groupContainersByNamePrefix containers,
      g.containers = [c] ∧ g.key = computeName c := by
  have hkc : recordKey (buildIndex containers).1 (buildIndex containers).2 c
      = computeName c := by
    rw [recordKey_eq_specKey containers hnd hc]
    exact specKey_of_no_eligible containers c helig
  have hkmem := buildGroups_complete (buildIndex containers).1 (buildIndex containers).2
    containers c hc
  rcases List.mem_map.mp hkmem with ⟨kv, hkv, hk1⟩
  have hflt := buildGroups_filter _ _ containers kv hkv
  have hiff : ∀ x ∈ containers,
      (recordKey (buildIndex containers).1 (buildIndex containers).2 x = kv.1) ↔ x = c := by
    intro x hx
    constructor
    · intro hxk
      by_contra hxc
      rw [hk1, hkc] at hxk
      rw [recordKey_eq_specKey containers hnd hx] at hxk
      have htc : computeName c ∈ uniqueCandidates c := computeName_mem_uniqueCandidates hne
      have hfreq2 : 2 ≤ freqCount containers (computeName c) := by
        unfold specKey at hxk
        by_cases he : (eligibleOf containers x).isEmpty = true
        · rw [if_pos he] at hxk
          have htx : computeName c ∈ uniqueCandidates x := by
            rw [← hxk]
            refine computeName_mem_uniqueCandidates ?_
            rw [hxk]
            exact hne
          refine two_mem_le_countP (fun h => hxc h.symm) hc hx ?_ ?_
          · simp [htc]
          · simp [htx]
        · rw [if_neg he] at hxk
          have hesne : eligibleOf containers x ≠ [] := fun hh => he (by rw [hh]; rfl)
          have hmem := argBest_mem (freqCount containers) (computeName x) hesne
          rw [hxk] at hmem
          unfold eligibleOf at hmem
          have := List.of_mem_filter hmem
          simpa using this
      exact absurd hfreq2 (by have := helig _ htc; omega)
    · intro hxc
      rw [hxc, hk1]
  have hmembers : kv.2 = [c] := by
    rw [hflt]
    have hcongr : containers.filter
        (fun x => decide (recordKey (buildIndex containers).1 (buildIndex containers).2 x
          = kv.1))
        = containers.filter (fun x => decide (x = c)) := by
      refine List.filter_congr ?_
      intro x hx
      exact decide_eq_decide.mpr (hiff x hx)
    rw [hcongr]
    refine filter_mem_len_le_one hc (by simp) ?_
    exact countP_eq_self_le_one (List.Nodup.of_map _ hnd) c
  refine ⟨ContainerGroup.mk kv.1 (jsSortBy memberCmp kv.2) (kv.2.countP isRunning)
    (kv.2.length - kv.2.countP isRunning), mem_groupOut.mpr ⟨kv, hkv, rfl⟩, ?_, ?_⟩
  · show jsSortBy memberCmp kv.2 = [c]
    rw [hmembers]
    rfl
  · show kv.1 = computeName c
    rw [hk1, hkc]

/-! ## The claims -/

/-- C1 (amended): for every snapshot (with the upstream contract's distinct
ids), the key selected for each record is computed from its own candidate set
and the global frequency index exactly as §4.3 specifies — only candidates
contained in the candidate sets of at least 2 distinct records are eligible,
among them the highest count wins, ties go to the longer string and remaining
ties to the fixed generation order, and with no eligible candidate the
record's own trimmed name-or-id becomes its key (`specKey` states this rule);
moreover the fallback forms a singleton group whenever that trimmed
name-or-id is non-empty (the amendment: records whose name-or-id trims to the
empty string share the empty key, see the counterexample). -/
theorem C1_key_selection (containers : List ContainerInfo)
    (hnd : (containers.map (·.id)).Nodup) (c : ContainerInfo) (hc : c ∈ containers) :
    (∃ g ∈ groupContainersByNamePrefix containers,
      c ∈ g.containers ∧ g.key = specKey containers c) ∧
    ((∀ k ∈ uniqueCandidates c, freqCount containers k < 2) → computeName c ≠ [] →
      ∃ g ∈ groupContainersByNamePrefix containers,
        g.containers = [c] ∧ g.key = computeName c) :=
  ⟨exists_group_with_specKey containers hnd hc,
    fun helig hne => fallback_singleton containers hnd hc helig hne⟩

theorem C1_key_selection_witness :
    ([recDb, recDbR1, recDbR2].map (·.id)).Nodup ∧
    recDb ∈ [recDb, recDbR1, recDbR2] ∧
    ((∃ g ∈ groupContainersByNamePrefix [recDb, recDbR1, recDbR2],
      recDb ∈ g.containers ∧ g.key = specKey [recDb, recDbR1, recDbR2] recDb) ∧
    ((∀ k ∈ uniqueCandidates recDb, freqCount [recDb, recDbR1, recDbR2] k < 2) →
      computeName recDb ≠ [] →
      ∃ g ∈ groupContainersByNamePrefix [recDb, recDbR1, recDbR2],
        g.containers = [recDb] ∧ g.key = computeName recDb)) :=
  ⟨by decide, by decide,
    C1_key_selection [recDb, recDbR1, recDbR2] (by decide) recDb (by decide)⟩

/-- C1 counterexample: in the snapshot of two records whose names are a single
blank (ids `"a"` and `"b"`), both records have empty candidate sets, both fall
back to their trimmed name-or-id `""` as the claim says — but they land in one
shared two-member group, so the fallback does not form a singleton group. -/
theorem C1_counterexample :
    (∀ c ∈ [recBlankA, recBlankB], uniqueCandidates c = [] ∧
      ∃ g ∈ groupContainersByNamePrefix [recBlankA, recBlankB],
        c ∈ g.containers ∧ g.key = computeName c) ∧
    ¬ ∃ g ∈ groupContainersByNamePrefix [recBlankA, recBlankB],
        g.containers = [recBlankA] := by decide

/-- C2: for every input whose trimmed form is non-empty, the candidate
generator returns the de-duplicated generation sequence — the full trimmed
name, then the suffix-stripped form when it exists and is non-empty, then the
non-empty prefixes before each separator, left to right — keeping each string
at its first position (and `Nodup` holds); and the strip succeeds exactly on
removal of a trailing `-<digits>` / `_<digits>` suffix. -/
theorem C2_candidate_generation (name : Str) (h : jsTrim name ≠ []) :
    containerGroupCandidates name = dedupFirst (genSequence name) ∧
    (containerGroupCandidates name).Nodup ∧
    (∀ b, stripMatch (jsTrim name) = some b →
      ∃ c ds, (c = '-' ∨ c = '_') ∧ ds ≠ [] ∧ (∀ d ∈ ds, d.isDigit = true) ∧
        jsTrim name = b ++ c :: ds) ∧
    (stripMatch (jsTrim name) = none →
      ∀ b c ds, (c = '-' ∨ c = '_') → ds ≠ [] → (∀ d ∈ ds, d.isDigit = true) →
        jsTrim name ≠ b ++ c :: ds) := by
  refine ⟨containerGroupCandidates_eq_dedup name h, ?_, ?_, ?_⟩
  · rw [containerGroupCandidates_eq_dedup name h]
    exact nodup_dedupFirst _
  · intro b hb
    exact stripMatch_some_spec hb
  · intro hn
    exact stripMatch_none_spec hn

theorem C2_candidate_generation_witness :
    jsTrim "web-01-2".data ≠ [] ∧
    (containerGroupCandidates "web-01-2".data = dedupFirst (genSequence "web-01-2".data) ∧
    (containerGroupCandidates "web-01-2".data).Nodup ∧
    (∀ b, stripMatch (jsTrim "web-01-2".data) = some b →
      ∃ c ds, (c = '-' ∨ c = '_') ∧ ds ≠ [] ∧ (∀ d ∈ ds, d.isDigit = true) ∧
        jsTrim "web-01-2".data = b ++ c :: ds) ∧
    (stripMatch (jsTrim "web-01-2".data) = none →
      ∀ b c ds, (c = '-' ∨ c = '_') → ds ≠ [] → (∀ d ∈ ds, d.isDigit = true) →
        jsTrim "web-01-2".data ≠ b ++ c :: ds)) :=
  ⟨by decide, C2_candidate_generation "web-01-2".data (by decide)⟩

/-- C3: every input record appears in exactly one output group — the member
lists of all groups flatten to a permutation of the input snapshot (no loss,
no duplication) — and no output group is empty. -/
theorem C3_partition (containers : List ContainerInfo) :
    ((groupContainersByNamePrefix containers).map
      (fun g => g.containers)).flatten.Perm containers ∧
    ∀ g ∈ groupContainersByNamePrefix containers, g.containers ≠ [] :=
  ⟨groupOut_flatten_perm containers, groupOut_ne_nil containers⟩

theorem C3_partition_witness :
    ((groupContainersByNamePrefix [recDb, recDbR1, recDbR2]).map
      (fun g => g.containers)).flatten.Perm [recDb, recDbR1, recDbR2] ∧
    ∀ g ∈ groupContainersByNamePrefix [recDb, recDbR1, recDbR2], g.containers ≠ [] :=
  C3_partition [recDb, recDbR1, recDbR2]

/-- C4: inside every output group the members are ordered with running members
before stopped members and, within each bucket, in ascending lexicographic
order of name-or-id with id as final tie-break (`specMemberLE`); in
particular Scenario B produces one group keyed `"db"` with members
`["db", "db-replica-2", "db-replica-1"]`. -/
theorem C4_member_order (containers : List ContainerInfo) :
    (∀ g ∈ groupContainersByNamePrefix containers,
      g.containers.Pairwise specMemberLE) ∧
    groupContainersByNamePrefix [recDb, recDbR1, recDbR2] =
      [⟨"db".data, [recDb, recDbR2, recDbR1], 2, 1⟩] := by
  constructor
  · intro g hg
    rcases mem_groupOut.mp hg with ⟨kv, hkv, rfl⟩
    exact members_sorted kv.2
  · decide

theorem C4_member_order_witness :
    (∀ g ∈ groupContainersByNamePrefix [recDb, recDbR1, recDbR2],
      g.containers.Pairwise specMemberLE) ∧
    groupContainersByNamePrefix [recDb, recDbR1, recDbR2] =
      [⟨"db".data, [recDb, recDbR2, recDbR1], 2, 1⟩] :=
  C4_member_order [recDb, recDbR1, recDbR2]

/-- C5: the output sequence puts groups with a running member before groups
with none, then larger groups first, then ascending key order
(`specGroupLE`); the `runningCount` field used by this order counts exactly
the running members; in particular Scenario A yields the two-member group
keyed `"web"` before the singleton keyed `"api-1"`. -/
theorem C5_group_order (containers : List ContainerInfo) :
    (groupContainersByNamePrefix containers).Pairwise specGroupLE ∧
    (∀ g ∈ groupContainersByNamePrefix containers,
      (0 < g.runningCount ↔ ∃ m ∈ g.containers, isRunning m = true)) ∧
    groupContainersByNamePrefix [recWeb1, recWeb2, recApi1] =
      [⟨"web".data, [recWeb1, recWeb2], 2, 0⟩, ⟨"api-1".data, [recApi1], 1, 0⟩] := by
  refine ⟨groups_sorted containers, ?_, by decide⟩
  intro g hg
  rcases mem_groupOut.mp hg with ⟨kv, hkv, rfl⟩
  dsimp only
  rw [List.countP_pos_iff]
  constructor
  · rintro ⟨m, hm, hrm⟩
    exact ⟨m, (perm_jsSortBy memberCmp kv.2).mem_iff.mpr hm, hrm⟩
  · rintro ⟨m, hm, hrm⟩
    exact ⟨m, (perm_jsSortBy memberCmp kv.2).mem_iff.mp hm, hrm⟩

theorem C5_group_order_witness :
    (groupContainersByNamePrefix [recWeb1, recWeb2, recApi1]).Pairwise specGroupLE ∧
    (∀ g ∈ groupContainersByNamePrefix [recWeb1, recWeb2, recApi1],
      (0 < g.runningCount ↔ ∃ m ∈ g.containers, isRunning m = true)) ∧
    groupContainersByNamePrefix [recWeb1, recWeb2, recApi1] =
      [⟨"web".data, [recWeb1, recWeb2], 2, 0⟩, ⟨"api-1".data, [recApi1], 1, 0⟩] :=
  C5_group_order [recWeb1, recWeb2, recApi1]

/-- C6 (amended): for every record whose `name` field is the empty string (not
merely trimming to empty — see the counterexample), the id is used in its
place: the name-or-id is the trimmed id, the candidate set is generated from
the id, and if no candidate is eligible the record's key is its trimmed id;
in particular a single record with empty name and id `"c1"` produces the
singleton group keyed `"c1"`. -/
theorem C6_empty_name_uses_id (containers : List ContainerInfo)
    (hnd : (containers.map (·.id)).Nodup) (c : ContainerInfo) (hc : c ∈ containers)
    (hname : c.name = []) :
    computeName c = jsTrim c.id ∧
    uniqueCandidates c = dedupFirst (containerGroupCandidates c.id) ∧
    ((∀ k ∈ uniqueCandidates c, freqCount containers k < 2) →
      ∃ g ∈ groupContainersByNamePrefix containers,
        c ∈ g.containers ∧ g.key = jsTrim c.id) ∧
    groupContainersByNamePrefix [recC6] = [⟨"c1".data, [recC6], 1, 0⟩] := by
  refine ⟨computeName_of_name_empty hname, uniqueCandidates_of_name_empty hname,
    ?_, by decide⟩
  intro helig
  rcases exists_group_with_specKey containers hnd hc with ⟨g, hg, hcg, hkey⟩
  refine ⟨g, hg, hcg, ?_⟩
  rw [hkey, specKey_of_no_eligible containers c helig, computeName_of_name_empty hname]

theorem C6_empty_name_uses_id_witness :
    (([recC6].map (·.id)).Nodup ∧ recC6 ∈ [recC6] ∧ recC6.name = []) ∧
    (computeName recC6 = jsTrim recC6.id ∧
    uniqueCandidates recC6 = dedupFirst (containerGroupCandidates recC6.id) ∧
    ((∀ k ∈ uniqueCandidates recC6, freqCount [recC6] k < 2) →
      ∃ g ∈ groupContainersByNamePrefix [recC6],
        recC6 ∈ g.containers ∧ g.key = jsTrim recC6.id) ∧
    groupContainersByNamePrefix [recC6] = [⟨"c1".data, [recC6], 1, 0⟩]) :=
  ⟨⟨by decide, by decide, by decide⟩,
    C6_empty_name_uses_id [recC6] (by decide) recC6 (by decide) (by decide)⟩

/-- C6 counterexample: a record whose name is a single blank trims to the
empty string, but the code does not fall back to the id (the `||` fallback
fires only on the empty string), so the group is keyed `""`, not `"c1"`. -/
theorem C6_counterexample :
    (groupContainersByNamePrefix [recBlankName]).map (fun g => g.key) = [[]] ∧
    ¬ ∃ g ∈ groupContainersByNamePrefix [recBlankName], g.key = "c1".data := by decide

/-- C7 (amended): in a snapshot in which at most one record's trimmed
name-or-id is empty (and ids are distinct), a record with both `name` and
`id` empty is placed in its own singleton group, and the computation returns
a result for the whole snapshot (the embedding is a total function). -/
theorem C7_empty_record_singleton (containers : List ContainerInfo)
    (hnd : (containers.map (·.id)).Nodup)
    (hone : containers.countP (fun c => (computeName c).isEmpty) ≤ 1)
    (c : ContainerInfo) (hc : c ∈ containers) (hname : c.name = []) (hid : c.id = []) :
    ∃ g ∈ groupContainersByNamePrefix containers, g.containers = [c] := by
  have hcn : computeName c = [] := by
    rw [computeName_of_name_empty hname, hid]
    rfl
  have hkc : recordKey (buildIndex containers).1 (buildIndex containers).2 c = [] :=
    (recordKey_empty_iff containers hnd c hc).mpr hcn
  rcases List.mem_map.mp (buildGroups_complete (buildIndex containers).1
    (buildIndex containers).2 containers c hc) with ⟨kv, hkv, hk1⟩
  have hflt := buildGroups_filter _ _ containers kv hkv
  have hcongr : containers.filter (fun x => decide (recordKey (buildIndex containers).1
      (buildIndex containers).2 x = kv.1))
      = containers.filter (fun x => (computeName x).isEmpty) := by
    refine List.filter_congr ?_
    intro x hx
    rw [hk1, hkc]
    by_cases hcx : computeName x = []
    · have h1 := (recordKey_empty_iff containers hnd x hx).mpr hcx
      simp [h1, hcx]
    · have h1 : recordKey (buildIndex containers).1 (buildIndex containers).2 x ≠ [] :=
        fun hh => hcx ((recordKey_empty_iff containers hnd x hx).mp hh)
      cases hcc : computeName x with
      | nil => exact absurd hcc hcx
      | cons a as => simp [h1]
  have hmembers : kv.2 = [c] := by
    rw [hflt, hcongr]
    refine filter_mem_len_le_one hc ?_ hone
    rw [hcn]
    rfl
  refine ⟨ContainerGroup.mk kv.1 (jsSortBy memberCmp kv.2) (kv.2.countP isRunning)
    (kv.2.length - kv.2.countP isRunning), mem_groupOut.mpr ⟨kv, hkv, rfl⟩, ?_⟩
  show jsSortBy memberCmp kv.2 = [c]
  rw [hmembers]
  rfl

theorem C7_empty_record_singleton_witness :
    (([recEmptyA].map (·.id)).Nodup ∧
      [recEmptyA].countP (fun c => (computeName c).isEmpty) ≤ 1 ∧
      recEmptyA ∈ [recEmptyA] ∧ recEmptyA.name = [] ∧ recEmptyA.id = []) ∧
    ∃ g ∈ groupContainersByNamePrefix [recEmptyA], g.containers = [recEmptyA] :=
  ⟨⟨by decide, by decide, by decide, by decide, by decide⟩,
    C7_empty_record_singleton [recEmptyA] (by decide) (by decide) recEmptyA
      (by decide) (by decide) (by decide)⟩

/-- C7 counterexample: with two records that both have empty `name` and empty
`id`, the code places both in one shared group keyed `""` with two members,
not in their own singleton groups. -/
theorem C7_counterexample :
    ¬ (∀ c ∈ [recEmptyA, recEmptyB], c.name = [] → c.id = [] →
      ∃ g ∈ groupContainersByNamePrefix [recEmptyA, recEmptyB],
        g.containers = [c]) := by decide

/-- C8: in every output group `runningCount` counts exactly the members in
state `"running"`, `stoppedCount` counts exactly the remaining members, and
the two add up to the length of the member list. -/
theorem C8_group_counts (containers : List ContainerInfo) :
    ∀ g ∈ groupContainersByNamePrefix containers,
      g.runningCount = g.containers.countP isRunning ∧
      g.stoppedCount = g.containers.countP (fun c => !(isRunning c)) ∧
      g.runningCount + g.stoppedCount = g.containers.length := by
  intro g hg
  rcases mem_groupOut.mp hg with ⟨kv, hkv, rfl⟩
  dsimp only
  have hperm := perm_jsSortBy memberCmp kv.2
  have h1 := hperm.countP_eq isRunning
  have h2 := hperm.countP_eq (fun c => !(isRunning c))
  have h3 := hperm.length_eq
  have h4 := List.length_eq_countP_add_countP isRunning kv.2
  have h5 : kv.2.countP (fun a => decide (¬ isRunning a = true))
      = kv.2.countP (fun c => !(isRunning c)) :=
    List.countP_congr (fun x _ => by simp)
  have h6 : kv.2.countP isRunning ≤ kv.2.length := List.countP_le_length _
  refine ⟨h1.symm, ?_, ?_⟩ <;> omega

theorem C8_group_counts_witness :
    (⟨"db".data, [recDb, recDbR2, recDbR1], 2, 1⟩ : ContainerGroup).runningCount
      = (⟨"db".data, [recDb, recDbR2, recDbR1], 2, 1⟩ : ContainerGroup).containers.countP
          isRunning ∧
    (⟨"db".data, [recDb, recDbR2, recDbR1], 2, 1⟩ : ContainerGroup).stoppedCount
      = (⟨"db".data, [recDb, recDbR2, recDbR1], 2, 1⟩ : ContainerGroup).containers.countP
          (fun c => !(isRunning c)) ∧
    (⟨"db".data, [recDb, recDbR2, recDbR1], 2, 1⟩ : ContainerGroup).runningCount
        + (⟨"db".data, [recDb, recDbR2, recDbR1], 2, 1⟩ : ContainerGroup).stoppedCount
      = (⟨"db".data, [recDb, recDbR2, recDbR1], 2, 1⟩ : ContainerGroup).containers.length :=
  C8_group_counts [recDb, recDbR1, recDbR2]
    ⟨"db".data, [recDb, recDbR2, recDbR1], 2, 1⟩ (by decide)

/-- C9: the computation is a pure function of its single input snapshot — the
embedding reads no state besides its argument (every binding in the source
function is local), so equal snapshots always produce equal outputs, with
identical groups, group order and member order. -/
theorem C9_pure_function (s1 s2 : List ContainerInfo) (h : s1 = s2) :
    groupContainersByNamePrefix s1 = groupContainersByNamePrefix s2 := by
  rw [h]

theorem C9_pure_function_witness :
    ([recDb, recDbR1, recDbR2] : List ContainerInfo) = [recDb, recDbR1, recDbR2] ∧
    groupContainersByNamePrefix [recDb, recDbR1, recDbR2]
      = groupContainersByNamePrefix [recDb, recDbR1, recDbR2] :=
  ⟨rfl, C9_pure_function [recDb, recDbR1, recDbR2] [recDb, recDbR1, recDbR2] rfl⟩

end CargoBay
